import Mathlib

set_option linter.unusedVariables false

namespace ProfViewer

/-! # Interval algebra

Modelled from the spec: the `Interval` type and its operations live in
`src/timestamp.rs`, which is not part of the sources provided; §4.1 of the
spec gives the exact formulas, transcribed here.  Timestamps are signed
64-bit nanosecond counts; arithmetic is exact (overflow is a programmer
error per §4.2), so we use `Int`. -/

structure Interval where
  start : Int
  stop : Int
deriving DecidableEq, Repr

def Interval.duration_ns (i : Interval) : Int := i.stop - i.start

def Interval.intersection (a b : Interval) : Interval :=
  ⟨max a.start b.start, min a.stop b.stop⟩

def Interval.union (a b : Interval) : Interval :=
  ⟨min a.start b.start, max a.stop b.stop⟩

def Interval.contains_interval (a inner : Interval) : Prop :=
  a.start ≤ inner.start ∧ inner.stop ≤ a.stop

instance (a b : Interval) : Decidable (a.contains_interval b) := by
  unfold Interval.contains_interval; infer_instance

def Interval.overlaps (a b : Interval) : Prop :=
  a.start < b.stop ∧ b.start < a.stop

instance (a b : Interval) : Decidable (a.overlaps b) := by
  unfold Interval.overlaps; infer_instance

def Interval.translate (i : Interval) (d : Int) : Interval :=
  ⟨i.start + d, i.stop + d⟩

def Interval.subtract_after (i : Interval) (cut : Int) : Interval :=
  ⟨i.start, min i.stop cut⟩

def Interval.subtract_before (i : Interval) (cut : Int) : Interval :=
  ⟨max i.start cut, i.stop⟩

/-- Modelled from the spec: `TileID` (in `src/data.rs`, not provided) is a
newtype wrapping an interval; equality is the underlying interval's. -/
structure TileID where
  i : Interval
deriving DecidableEq, Repr

instance : Inhabited TileID := ⟨⟨⟨0, 0⟩⟩⟩

/-- Modelled from the spec: `TileSet` (in `src/data.rs`, not provided) is an
ordered sequence of levels, each an ordered sequence of `TileID`s. -/
structure TileSet where
  tiles : List (List TileID)
deriving DecidableEq, Repr

/-! # Tile manager (`src/src/app/tile_manager.rs`) -/

structure TileManager where
  tile_set : TileSet
  interval : Interval
  last_request_interval : Option Interval × Option Interval
  tile_cache : List TileID × List TileID
deriving Repr

def TileManager.new (tile_set : TileSet) (interval : Interval) : TileManager :=
  ⟨tile_set, interval, (none, none), ([], [])⟩

/-- The memo slot selected by the `full` flag (the `select` calls at the top
of `request_tiles`). -/
def TileManager.slotLri (tm : TileManager) (full : Bool) : Option Interval :=
  if full then tm.last_request_interval.2 else tm.last_request_interval.1

def TileManager.slotCache (tm : TileManager) (full : Bool) : List TileID :=
  if full then tm.tile_cache.2 else tm.tile_cache.1

/-- `fill_cache`: store `ts` in the selected slot, record the request key,
and return a copy of the new cache.  (`reuse_cache` is the special case
`ts =` current cache.) -/
def TileManager.fill (tm : TileManager) (full : Bool) (r : Interval)
    (ts : List TileID) : List TileID × TileManager :=
  (ts,
    { tm with
      last_request_interval :=
        if full then (tm.last_request_interval.1, some r)
        else (some r, tm.last_request_interval.2)
      tile_cache :=
        if full then (tm.tile_cache.1, ts) else (ts, tm.tile_cache.2) })

/-- The `ratio` closure in `request_tiles`: probe the first two tiles, take
the larger duration `d`, and return the ≥-1 quotient against the request
duration.  The `f64` division of the source is transcribed as exact
rational division: `Rat.divInt x y = (x : ℚ) / (y : ℚ)`
(`Rat.divInt_eq_div`; the spec states the comparison in real arithmetic). -/
def ratio_q (request_duration : Int) (level : List TileID) : ℚ :=
  match level with
  | [] => 0
  | t :: rest =>
    let first := t.i.duration_ns
    let d := match rest with
      | [] => first
      | s :: _ => max first s.i.duration_ns
    if d < request_duration then Rat.divInt request_duration d
    else Rat.divInt d request_duration

/-- `(a as f64 / b as f64).ceil() as i64`, transcribed as the exact ceiling
of the rational quotient (`ceil_div_eq_ceil` below shows this formula is
that ceiling whenever `0 < b`). -/
def ceil_div (a b : Int) : Int := -((-a) / b)

/-- `tile_cache.iter().copied().reduce(|a, b| TileID(a.0.union(b.0)))`. -/
def envelopeFold (c : List TileID) : Option TileID :=
  match c with
  | [] => none
  | t :: rest => some (rest.foldl (fun a b => TileID.mk (a.i.union b.i)) t)

/-- The body of the prepend loop: `first_tile.translate((i - count_before) *
tile_size).intersection(self.interval)`. -/
@[reducible] def preTile (I H : Interval) (nb T : Int) (k : ℕ) : TileID :=
  TileID.mk ((H.translate (((k : Int) - nb) * T)).intersection I)

/-- The body of the append loop: `last_tile.translate((i + 1) *
tile_size).intersection(self.interval)`. -/
@[reducible] def appTile (I L : Interval) (T : Int) (k : ℕ) : TileID :=
  TileID.mk ((L.translate (((k : Int) + 1) * T)).intersection I)

/-- The cache-extension arm of the dynamic profile: prepend `count_before`
translated copies of the first tile, keep the cache, append `count_after`
translated copies of the last tile, each clipped to the row interval. -/
def extendTiles (I : Interval) (cache : List TileID) (E : Interval)
    (R : Interval) : List TileID :=
  let new_before := R.subtract_after E.start
  let new_after := R.subtract_before E.stop
  let tile_size := cache.headI.i.duration_ns
  let count_before := ceil_div new_before.duration_ns tile_size
  let pre := (List.range count_before.toNat).map
    (preTile I cache.headI.i count_before tile_size)
  let count_after := ceil_div new_after.duration_ns tile_size
  let app := (List.range count_after.toNat).map
    (appTile I cache.getLastI.i tile_size)
  pre ++ cache ++ app

/-- `Iterator::min_by` over the levels with the `ratio` comparator: returns
the first level attaining the minimum ratio (on ties the earlier element is
kept, as in `std::cmp::min_by`). -/
def minByRatio (rd : Int) (levels : List (List TileID)) : List TileID :=
  match levels with
  | [] => []
  | l :: rest =>
    rest.foldl (fun acc lv => if ratio_q rd lv < ratio_q rd acc then lv else acc) l

def TileManager.request_tiles (tm : TileManager) (view_interval : Interval)
    (full : Bool) : List TileID × TileManager :=
  let lri := tm.slotLri full
  let cache := tm.slotCache full
  let request_interval := view_interval.intersection tm.interval
  if lri = some request_interval then
    (cache, tm)
  else
    let request_duration := request_interval.duration_ns
    if request_duration ≤ 0 then
      tm.fill full request_interval []
    else if tm.tile_set.tiles.isEmpty then
      match envelopeFold cache with
      | some cache_interval =>
        if ratio_q request_duration cache ≤ 2 then
          if cache_interval.i.contains_interval request_interval then
            tm.fill full request_interval cache
          else if cache_interval.i.overlaps request_interval then
            tm.fill full request_interval
              (extendTiles tm.interval cache cache_interval.i request_interval)
          else
            tm.fill full request_interval [TileID.mk request_interval]
        else
          tm.fill full request_interval [TileID.mk request_interval]
      | none =>
        tm.fill full request_interval [TileID.mk request_interval]
    else
      let chosen_level :=
        if full then tm.tile_set.tiles.getLastI
        else minByRatio request_duration tm.tile_set.tiles
      tm.fill full request_interval
        (chosen_level.filter fun tile => decide (request_interval.overlaps tile.i))

/-- States reachable from `TileManager::new` by `request_tiles` calls. -/
inductive Reachable (ts : TileSet) (I : Interval) : TileManager → Prop
  | init : Reachable ts I (TileManager.new ts I)
  | step (tm : TileManager) (v : Interval) (f : Bool) :
      Reachable ts I tm → Reachable ts I (tm.request_tiles v f).2

/-! ## Coverage predicates and cache invariants -/

/-- Some tile of `c` contains the point `x` (half-open). -/
def CoversPt (c : List TileID) (x : Int) : Prop :=
  ∃ t ∈ c, t.i.start ≤ x ∧ x < t.i.stop

/-- The tiles of `c` jointly cover the interval `r`. -/
def Covers (c : List TileID) (r : Interval) : Prop :=
  ∀ x : Int, r.start ≤ x → x < r.stop → CoversPt c x

/-- The envelope of a cache, as the interval of `envelopeFold` (junk `[0,0)`
for an empty cache, which the tile manager never consults). -/
def cacheEnv (c : List TileID) : Interval :=
  match envelopeFold c with
  | some t => t.i
  | none => ⟨0, 0⟩

/-- Invariant of a dynamic-profile cache: every tile sits inside the row
interval with positive duration, the first tile starts the envelope and the
last one ends it, the tiles cover the whole envelope, and a last tile
strictly shorter than the first one can only arise from truncation at the
row's right edge. -/
def DynCacheOK (I : Interval) (c : List TileID) : Prop :=
  c = [] ∨
    ((∀ t ∈ c, I.contains_interval t.i ∧ 0 < t.i.duration_ns) ∧
     c.headI.i.start = (cacheEnv c).start ∧
     c.getLastI.i.stop = (cacheEnv c).stop ∧
     Covers c (cacheEnv c) ∧
     (c.getLastI.i.duration_ns < c.headI.i.duration_ns →
       c.getLastI.i.stop = I.stop))

/-- A static level is sorted by tile start. -/
def LevelSorted (lvl : List TileID) : Prop :=
  List.Pairwise (fun a b => a.i.start ≤ b.i.start) lvl

/-- A static level has pairwise non-overlapping tiles. -/
def LevelDisjoint (lvl : List TileID) : Prop :=
  List.Pairwise (fun a b => ¬ a.i.overlaps b.i) lvl

/-- A static level jointly covers the row's full interval. -/
def LevelCovers (I : Interval) (lvl : List TileID) : Prop :=
  ∀ x : Int, I.start ≤ x → x < I.stop → CoversPt lvl x

/-- Every tile of every level lies inside the row interval (the data model's
"truncated edge tiles" shape from §3 of the spec). -/
def TilesWithin (ts : TileSet) (I : Interval) : Prop :=
  ∀ lvl ∈ ts.tiles, ∀ t ∈ lvl, I.contains_interval t.i

/-- The per-slot state invariant: a dynamic cache is well-formed, and the
memoized cache covers the memoized request whenever the latter is
non-empty. -/
def SlotInv (ts : TileSet) (I : Interval) (lri : Option Interval)
    (c : List TileID) : Prop :=
  (ts.tiles.isEmpty = true → DynCacheOK I c) ∧
  (∀ R : Interval, lri = some R → 0 < R.duration_ns → Covers c R)

/-- The tile-manager state invariant used for the coverage claims. -/
def TMInv (ts : TileSet) (I : Interval) (tm : TileManager) : Prop :=
  tm.tile_set = ts ∧ tm.interval = I ∧
  ∀ f : Bool, SlotInv ts I (tm.slotLri f) (tm.slotCache f)

/-- `l` is the first level of `levels` attaining the minimum ratio:
every earlier level has a strictly larger ratio and every later one a
ratio at least as large. -/
def IsFirstMinRatio (rd : Int) (levels : List (List TileID))
    (l : List TileID) : Prop :=
  ∃ pre post, levels = pre ++ l :: post ∧
    (∀ p ∈ pre, ratio_q rd l < ratio_q rd p) ∧
    (∀ p ∈ post, ratio_q rd l ≤ ratio_q rd p)

/-! # Deferred data source (`src/src/deferred_data.rs`) -/

/-- Modelled from the spec: `EntryID` (in `src/data.rs`, not provided) is an
opaque row identifier, a rooted path of indices; only equality is used
here. -/
abbrev EntryID := List ℕ

/-- Modelled from the spec: one element of a slot tile's rectangular item
array; it provides an interval and a color (§4.4). -/
structure DataItem where
  interval : Interval
  color : ℕ
deriving DecidableEq, Repr

/-- Modelled from the spec: one element of a slot meta tile's item array; it
provides a title (§4.4). -/
structure ItemMeta where
  title : String
deriving DecidableEq, Repr

/-- Modelled from the spec: a summary tile payload (content irrelevant to the
claims; it carries its row). -/
structure SummaryTile where
  entry_id : EntryID
deriving DecidableEq, Repr

/-- Modelled from the spec: a slot tile payload with its rectangular item
rows. -/
structure SlotTile where
  entry_id : EntryID
  items : List (List DataItem)
deriving DecidableEq, Repr

/-- Modelled from the spec: a slot meta tile payload. -/
structure SlotMetaTile where
  entry_id : EntryID
  items : List (List ItemMeta)
deriving DecidableEq, Repr

/-- Modelled from the spec: the one-shot metadata payload. -/
structure DataSourceInfo where
  interval : Interval
deriving DecidableEq, Repr

/-- `TileRequest`: the originating request carried with every response. -/
structure TileRequest where
  entry_id : EntryID
  tile_id : TileID
  full : Bool
deriving DecidableEq, Repr

/-- Modelled from the spec: the blocking `DataSource` capability wrapped by
`DeferredDataSourceWrapper` (trait in `src/data.rs`, not provided): each
fetch is a total synchronous function. -/
structure DataSource where
  fetch_info : DataSourceInfo
  fetch_summary_tile : EntryID → TileID → Bool → SummaryTile
  fetch_slot_tile : EntryID → TileID → Bool → SlotTile
  fetch_slot_meta_tile : EntryID → TileID → Bool → SlotMetaTile

/-- The synchronous adapter: it executes fetches eagerly and queues the
responses until the matching `get_*` drains them (`std::mem::take`). -/
structure DeferredDataSourceWrapper where
  data_source : DataSource
  infos : List DataSourceInfo
  summary_tiles : List (Except String SummaryTile × TileRequest)
  slot_tiles : List (Except String SlotTile × TileRequest)
  slot_meta_tiles : List (Except String SlotMetaTile × TileRequest)

namespace DeferredDataSourceWrapper

def new (data_source : DataSource) : DeferredDataSourceWrapper :=
  ⟨data_source, [], [], [], []⟩

def fetch_info (w : DeferredDataSourceWrapper) : DeferredDataSourceWrapper :=
  { w with infos := w.infos ++ [w.data_source.fetch_info] }

def get_infos (w : DeferredDataSourceWrapper) :
    List DataSourceInfo × DeferredDataSourceWrapper :=
  (w.infos, { w with infos := [] })

def fetch_summary_tile (w : DeferredDataSourceWrapper) (entry_id : EntryID)
    (tile_id : TileID) (full : Bool) : DeferredDataSourceWrapper :=
  { w with summary_tiles := w.summary_tiles ++
      [(Except.ok (w.data_source.fetch_summary_tile entry_id tile_id full),
        ⟨entry_id, tile_id, full⟩)] }

def get_summary_tiles (w : DeferredDataSourceWrapper) :
    List (Except String SummaryTile × TileRequest) × DeferredDataSourceWrapper :=
  (w.summary_tiles, { w with summary_tiles := [] })

def fetch_slot_tile (w : DeferredDataSourceWrapper) (entry_id : EntryID)
    (tile_id : TileID) (full : Bool) : DeferredDataSourceWrapper :=
  { w with slot_tiles := w.slot_tiles ++
      [(Except.ok (w.data_source.fetch_slot_tile entry_id tile_id full),
        ⟨entry_id, tile_id, full⟩)] }

def get_slot_tiles (w : DeferredDataSourceWrapper) :
    List (Except String SlotTile × TileRequest) × DeferredDataSourceWrapper :=
  (w.slot_tiles, { w with slot_tiles := [] })

def fetch_slot_meta_tile (w : DeferredDataSourceWrapper) (entry_id : EntryID)
    (tile_id : TileID) (full : Bool) : DeferredDataSourceWrapper :=
  { w with slot_meta_tiles := w.slot_meta_tiles ++
      [(Except.ok (w.data_source.fetch_slot_meta_tile entry_id tile_id full),
        ⟨entry_id, tile_id, full⟩)] }

def get_slot_meta_tiles (w : DeferredDataSourceWrapper) :
    List (Except String SlotMetaTile × TileRequest) × DeferredDataSourceWrapper :=
  (w.slot_meta_tiles, { w with slot_meta_tiles := [] })

end DeferredDataSourceWrapper

/-- One operation against the synchronous adapter (get results are observed
through the state the run reaches just before the drain). -/
inductive WrapperOp where
  | fetchInfo
  | getInfos
  | fetchSummary (entry_id : EntryID) (tile_id : TileID) (full : Bool)
  | getSummaries
  | fetchSlot (entry_id : EntryID) (tile_id : TileID) (full : Bool)
  | getSlots
  | fetchSlotMeta (entry_id : EntryID) (tile_id : TileID) (full : Bool)
  | getSlotMetas

def applyWrapperOp (w : DeferredDataSourceWrapper) :
    WrapperOp → DeferredDataSourceWrapper
  | .fetchInfo => w.fetch_info
  | .getInfos => w.get_infos.2
  | .fetchSummary e t f => w.fetch_summary_tile e t f
  | .getSummaries => w.get_summary_tiles.2
  | .fetchSlot e t f => w.fetch_slot_tile e t f
  | .getSlots => w.get_slot_tiles.2
  | .fetchSlotMeta e t f => w.fetch_slot_meta_tile e t f
  | .getSlotMetas => w.get_slot_meta_tiles.2

def runWrapperOps (w : DeferredDataSourceWrapper) (ops : List WrapperOp) :
    DeferredDataSourceWrapper :=
  ops.foldl applyWrapperOp w

/-! ## Counting wrapper (`CountingDeferredDataSource`) -/

/-- One event against `CountingDeferredDataSource`: a `fetch_*` call
(`start_request`), or a `get_*` call whose inner drain returned `n`
responses (`finish_request` with `result.len() = n`). -/
inductive CountEvent where
  | fetch : CountEvent
  | drain : ℕ → CountEvent
deriving DecidableEq, Repr

/-- `start_request`: `self.outstanding_requests += 1`. -/
def start_request (outstanding : ℕ) : ℕ := outstanding + 1

/-- `finish_request`: `assert!(self.outstanding_requests >= count)` then
subtract; `none` models the assertion failure (abort). -/
def finish_request (outstanding : ℕ) (count : ℕ) : Option ℕ :=
  if count ≤ outstanding then some (outstanding - count) else none

/-- Run a sequence of events through the counter, aborting on a failed
drain assertion. -/
def runCounting : ℕ → List CountEvent → Option ℕ
  | c, [] => some c
  | c, .fetch :: evs => runCounting (start_request c) evs
  | c, .drain n :: evs =>
    match finish_request c n with
    | some c2 => runCounting c2 evs
    | none => none

def fetchCount (evs : List CountEvent) : ℕ :=
  evs.countP fun e => decide (e = .fetch)

def drainSum (evs : List CountEvent) : ℕ :=
  (evs.map fun e => match e with | .fetch => 0 | .drain n => n).sum

/-! # Streaming matcher and exporter (`src/src/nvtxw.rs`) -/

/-- The state `process_events` threads: the counting source's outstanding
counter, the `unmatched_tiles` holding map (`BTreeMap` modelled as an
association list with unique keys), and the matched pairs written so far. -/
structure MatcherState where
  outstanding : ℕ
  unmatched_tiles : List (EntryID × (Option SlotTile × Option SlotMetaTile))
  emitted : List (SlotTile × SlotMetaTile)

/-- `unmatched_tiles.entry(e).or_insert((None, None)).0 = Some(tile)`. -/
def holdPutV (m : List (EntryID × (Option SlotTile × Option SlotMetaTile)))
    (tile : SlotTile) : List (EntryID × (Option SlotTile × Option SlotMetaTile)) :=
  if m.any fun p => decide (p.1 = tile.entry_id) then
    m.map fun p => if p.1 = tile.entry_id then (p.1, (some tile, p.2.2)) else p
  else m ++ [(tile.entry_id, (some tile, none))]

/-- `unmatched_tiles.entry(e).or_insert((None, None)).1 = Some(meta_tile)`. -/
def holdPutM (m : List (EntryID × (Option SlotTile × Option SlotMetaTile)))
    (meta_tile : SlotMetaTile) :
    List (EntryID × (Option SlotTile × Option SlotMetaTile)) :=
  if m.any fun p => decide (p.1 = meta_tile.entry_id) then
    m.map fun p =>
      if p.1 = meta_tile.entry_id then (p.1, (p.2.1, some meta_tile)) else p
  else m ++ [(meta_tile.entry_id, (none, some meta_tile))]

/-- One iteration of the `process_events` loop body: drain a batch of slot
tiles and slot meta tiles (decrementing the outstanding counter), file each
into the holding map, then `retain`: emit and remove every fully matched
entry. -/
def stepBatch (st : MatcherState)
    (b : List SlotTile × List SlotMetaTile) : MatcherState :=
  let m1 := b.1.foldl holdPutV st.unmatched_tiles
  let m2 := b.2.foldl holdPutM m1
  let retained := m2.filter fun p => !(p.2.1.isSome && p.2.2.isSome)
  let matched := m2.filterMap fun p =>
    match p.2 with
    | (some t, some mt) => some (t, mt)
    | _ => none
  ⟨st.outstanding - (b.1.length + b.2.length), retained, st.emitted ++ matched⟩

/-- `process_events`: loop while `outstanding > num_requests`, consuming in
each iteration the batch of responses the wrapped source has completed.
The schedule of batch arrivals is the external input; the claims assume the
source eventually delivers every fetched response, so the schedule is
finite and its exhaustion coincides with quiescence. -/
def process_events (num_requests : ℕ) :
    MatcherState → List (List SlotTile × List SlotMetaTile) → MatcherState
  | st, [] => st
  | st, b :: rest =>
    if st.outstanding ≤ num_requests then st
    else process_events num_requests (stepBatch st b) rest

/-! ## Exporter timestamp arithmetic (`write_matched_tile`) -/

/-- `x as u64` on an `i64`: two's-complement reinterpretation. -/
def u64_of_i64 (x : Int) : ℕ := (x % (2 : Int) ^ 64).toNat

/-- `u64::checked_add`. -/
def u64_checked_add (a b : ℕ) : Option ℕ :=
  if a + b < 2 ^ 64 then some (a + b) else none

/-- `u64::try_from` on an `i64` (`zero_time.try_into()`): fails exactly on
negative input. -/
def u64_try_from_i64 (z : Int) : Option ℕ :=
  if 0 ≤ z then some z.toNat else none

/-- `(timestamp as u64).checked_add(zero_time.try_into().unwrap())`, with
`none` for either panic (`unwrap` on a negative `zero_time`, or `expect` on
an overflowing addition). -/
def event_time (ts : Int) (zero_time : Int) : Option ℕ :=
  match u64_try_from_i64 zero_time with
  | some z => u64_checked_add (u64_of_i64 ts) z
  | none => none

structure EmittedEvent where
  time_start : ℕ
  time_stop : ℕ
  title : String
deriving DecidableEq, Repr

/-- The per-item body of `write_matched_tile`: compute both event
timestamps (failing loudly on overflow) and emit the event. -/
def write_item (zero_time : Int) (item : DataItem) (meta_item : ItemMeta) :
    Option EmittedEvent :=
  match event_time item.interval.start zero_time,
      event_time item.interval.stop zero_time with
  | some a, some b => some ⟨a, b, meta_item.title⟩
  | _, _ => none

/-- `write_matched_tile` over the flattened zip of the value rows and meta
rows: the first panic aborts the export. -/
def write_items (zero_time : Int) :
    List (DataItem × ItemMeta) → Option (List EmittedEvent)
  | [] => some []
  | p :: ps =>
    match write_item zero_time p.1 p.2, write_items zero_time ps with
    | some e, some es => some (e :: es)
    | _, _ => none

/-- The item pairs a matched tile contributes: rows zipped positionally,
then items zipped within each row (the source asserts the two sides have
identical shape). -/
def matchedPairs (tile : SlotTile) (meta_tile : SlotMetaTile) :
    List (DataItem × ItemMeta) :=
  ((tile.items.zip meta_tile.items).map fun rm => rm.1.zip rm.2).flatten

def write_matched_tile (zero_time : Int) (tile : SlotTile)
    (meta_tile : SlotMetaTile) : Option (List EmittedEvent) :=
  write_items zero_time (matchedPairs tile meta_tile)

/-- The hypotheses under which the dynamic extension arm runs: a non-empty
well-formed cache (per `DynCacheOK`, unfolded), and a non-empty request
`R ⊆ I` overlapping the cache envelope. -/
structure ExtCtx (I R : Interval) (c : List TileID) : Prop where
  hc : c ≠ []
  hin : ∀ t ∈ c, I.contains_interval t.i ∧ 0 < t.i.duration_ns
  hhead : c.headI.i.start = (cacheEnv c).start
  hlast : c.getLastI.i.stop = (cacheEnv c).stop
  hcov : Covers c (cacheEnv c)
  hg : c.getLastI.i.duration_ns < c.headI.i.duration_ns →
    c.getLastI.i.stop = I.stop
  hRs : I.start ≤ R.start
  hRe : R.stop ≤ I.stop
  hRd : 0 < R.duration_ns
  hov : (cacheEnv c).overlaps R

/-- All responses queued inside the synchronous adapter carry `Ok`
payloads. -/
def OkQueues (w : DeferredDataSourceWrapper) : Prop :=
  (∀ p ∈ w.summary_tiles, ∃ t, p.1 = Except.ok t) ∧
  (∀ p ∈ w.slot_tiles, ∃ t, p.1 = Except.ok t) ∧
  (∀ p ∈ w.slot_meta_tiles, ∃ t, p.1 = Except.ok t)

/-! ## Holding-map abstraction for the matcher -/

/-- Association-list lookup on the `unmatched_tiles` map (`BTreeMap::get`). -/
def alookup (m : List (EntryID × (Option SlotTile × Option SlotMetaTile)))
    (r : EntryID) : Option (Option SlotTile × Option SlotMetaTile) :=
  (m.find? fun p => decide (p.1 = r)).map Prod.snd

/-- Responses delivered by one loop iteration. -/
def batchLen (b : List SlotTile × List SlotMetaTile) : ℕ :=
  b.1.length + b.2.length

/-- Total responses a delivery schedule provides. -/
def schedLen (sched : List (List SlotTile × List SlotMetaTile)) : ℕ :=
  (sched.map batchLen).sum

/-- Row keys of every slot (value) tile a schedule delivers, in order. -/
def vKeys (sched : List (List SlotTile × List SlotMetaTile)) : List EntryID :=
  ((sched.map Prod.fst).flatten).map SlotTile.entry_id

/-- Row keys of every slot meta tile a schedule delivers, in order. -/
def mKeys (sched : List (List SlotTile × List SlotMetaTile)) : List EntryID :=
  ((sched.map Prod.snd).flatten).map SlotMetaTile.entry_id

/-- The matcher invariant between loop iterations: `dV` (resp. `dM`) is the
list of row keys whose value (resp. meta) tile has been delivered, `vt r`
(resp. `mt r`) the tile delivered for row `r`. The holding map holds exactly
the half-matched rows, and the emitted pairs are exactly the fully delivered
rows. -/
structure MatchInv (vt : EntryID → SlotTile) (mt : EntryID → SlotMetaTile)
    (dV dM : List EntryID) (st : MatcherState) : Prop where
  nodupK : (st.unmatched_tiles.map Prod.fst).Nodup
  look : ∀ r, alookup st.unmatched_tiles r =
    if r ∈ dV then
      if r ∈ dM then none else some (some (vt r), none)
    else
      if r ∈ dM then some (none, some (mt r)) else none
  emit_mem : ∀ e ∈ st.emitted, e = (vt e.1.entry_id, mt e.1.entry_id)
  emit_keys : (st.emitted.map fun e => e.1.entry_id).Perm
    (dV.filter fun r => decide (r ∈ dM))

/-- The pair a fully matched holding-map entry contributes (the body of the
`retain` closure's match). -/
def matchPair :
    EntryID × (Option SlotTile × Option SlotMetaTile) →
      Option (SlotTile × SlotMetaTile) :=
  fun p => match p.2 with
  | (some t, some mt) => some (t, mt)
  | _ => none

/-! ## Concrete fixtures used to witness the theorems -/

/-- A trivial synchronous blocking data source. -/
def dsFixture : DataSource :=
  ⟨⟨⟨0, 10⟩⟩, fun e _ _ => ⟨e⟩, fun e _ _ => ⟨e, []⟩, fun e _ _ => ⟨e, []⟩⟩

/-- The value tiles of the matcher fixture, one per row key. -/
def vtFixture : EntryID → SlotTile := fun r => ⟨r, []⟩

/-- The meta tiles of the matcher fixture, one per row key. -/
def mtFixture : EntryID → SlotMetaTile := fun r => ⟨r, []⟩

/-- A two-batch schedule for row `[0]`: the value tile arrives first, the
meta tile one iteration later. -/
def schedFixture : List (List SlotTile × List SlotMetaTile) :=
  [([⟨[0], []⟩], []), ([], [⟨[0], []⟩])]

/-- A dynamic-profile manager over `[0, 100)` whose `full = false` slot
memoizes request `[0, 20)` with cache `[[0, 20)]`. -/
def tmFixture : TileManager :=
  ⟨⟨[]⟩, ⟨0, 100⟩, (some ⟨0, 20⟩, none), ([TileID.mk ⟨0, 20⟩], [])⟩

/-- A two-level static tile set over `[0, 100)`. -/
def tsFixture : TileSet :=
  ⟨[[TileID.mk ⟨0, 100⟩], [TileID.mk ⟨0, 50⟩, TileID.mk ⟨50, 100⟩]]⟩

end ProfViewer

namespace ProfViewer

/-! # Basic lemmas about the tile manager embedding -/

theorem fill_fst (tm : TileManager) (f : Bool) (r : Interval)
    (ts : List TileID) : (tm.fill f r ts).1 = ts := rfl

theorem fill_tile_set (tm : TileManager) (f : Bool) (r : Interval)
    (ts : List TileID) : (tm.fill f r ts).2.tile_set = tm.tile_set := rfl

theorem fill_interval (tm : TileManager) (f : Bool) (r : Interval)
    (ts : List TileID) : (tm.fill f r ts).2.interval = tm.interval := rfl

theorem slotLri_fill_self (tm : TileManager) (f : Bool) (r : Interval)
    (ts : List TileID) : ((tm.fill f r ts).2).slotLri f = some r := by
  cases f <;> simp [TileManager.fill, TileManager.slotLri]

theorem slotCache_fill_self (tm : TileManager) (f : Bool) (r : Interval)
    (ts : List TileID) : ((tm.fill f r ts).2).slotCache f = ts := by
  cases f <;> simp [TileManager.fill, TileManager.slotCache]

theorem slotLri_fill_other (tm : TileManager) (f g : Bool) (r : Interval)
    (ts : List TileID) (h : g ≠ f) :
    ((tm.fill f r ts).2).slotLri g = tm.slotLri g := by
  cases f <;> cases g <;> simp_all [TileManager.fill, TileManager.slotLri]

theorem slotCache_fill_other (tm : TileManager) (f g : Bool) (r : Interval)
    (ts : List TileID) (h : g ≠ f) :
    ((tm.fill f r ts).2).slotCache g = tm.slotCache g := by
  cases f <;> cases g <;> simp_all [TileManager.fill, TileManager.slotCache]

/-! ## Branch equations for `request_tiles` -/

theorem request_tiles_eq_memo (tm : TileManager) (v : Interval) (f : Bool)
    (h1 : tm.slotLri f = some (v.intersection tm.interval)) :
    tm.request_tiles v f = (tm.slotCache f, tm) := by
  simp only [TileManager.request_tiles]
  rw [if_pos h1]

theorem request_tiles_eq_empty (tm : TileManager) (v : Interval) (f : Bool)
    (h1 : ¬ tm.slotLri f = some (v.intersection tm.interval))
    (h2 : (v.intersection tm.interval).duration_ns ≤ 0) :
    tm.request_tiles v f = tm.fill f (v.intersection tm.interval) [] := by
  simp only [TileManager.request_tiles]
  rw [if_neg h1, if_pos h2]

theorem request_tiles_eq_fresh_none (tm : TileManager) (v : Interval) (f : Bool)
    (h1 : ¬ tm.slotLri f = some (v.intersection tm.interval))
    (h2 : ¬ (v.intersection tm.interval).duration_ns ≤ 0)
    (h3 : tm.tile_set.tiles.isEmpty = true)
    (h4 : envelopeFold (tm.slotCache f) = none) :
    tm.request_tiles v f =
      tm.fill f (v.intersection tm.interval)
        [TileID.mk (v.intersection tm.interval)] := by
  simp only [TileManager.request_tiles]
  rw [if_neg h1, if_neg h2, if_pos h3, h4]

theorem request_tiles_eq_reuse (tm : TileManager) (v : Interval) (f : Bool)
    (E : TileID)
    (h1 : ¬ tm.slotLri f = some (v.intersection tm.interval))
    (h2 : ¬ (v.intersection tm.interval).duration_ns ≤ 0)
    (h3 : tm.tile_set.tiles.isEmpty = true)
    (h4 : envelopeFold (tm.slotCache f) = some E)
    (h5 : ratio_q (v.intersection tm.interval).duration_ns (tm.slotCache f) ≤ 2)
    (h6 : E.i.contains_interval (v.intersection tm.interval)) :
    tm.request_tiles v f =
      tm.fill f (v.intersection tm.interval) (tm.slotCache f) := by
  simp only [TileManager.request_tiles]
  rw [if_neg h1, if_neg h2, if_pos h3, h4]
  dsimp only
  rw [if_pos h5, if_pos h6]

theorem request_tiles_eq_extend (tm : TileManager) (v : Interval) (f : Bool)
    (E : TileID)
    (h1 : ¬ tm.slotLri f = some (v.intersection tm.interval))
    (h2 : ¬ (v.intersection tm.interval).duration_ns ≤ 0)
    (h3 : tm.tile_set.tiles.isEmpty = true)
    (h4 : envelopeFold (tm.slotCache f) = some E)
    (h5 : ratio_q (v.intersection tm.interval).duration_ns (tm.slotCache f) ≤ 2)
    (h6 : ¬ E.i.contains_interval (v.intersection tm.interval))
    (h7 : E.i.overlaps (v.intersection tm.interval)) :
    tm.request_tiles v f =
      tm.fill f (v.intersection tm.interval)
        (extendTiles tm.interval (tm.slotCache f) E.i
          (v.intersection tm.interval)) := by
  simp only [TileManager.request_tiles]
  rw [if_neg h1, if_neg h2, if_pos h3, h4]
  dsimp only
  rw [if_pos h5, if_neg h6, if_pos h7]

theorem request_tiles_eq_fresh_noov (tm : TileManager) (v : Interval) (f : Bool)
    (E : TileID)
    (h1 : ¬ tm.slotLri f = some (v.intersection tm.interval))
    (h2 : ¬ (v.intersection tm.interval).duration_ns ≤ 0)
    (h3 : tm.tile_set.tiles.isEmpty = true)
    (h4 : envelopeFold (tm.slotCache f) = some E)
    (h5 : ratio_q (v.intersection tm.interval).duration_ns (tm.slotCache f) ≤ 2)
    (h6 : ¬ E.i.contains_interval (v.intersection tm.interval))
    (h7 : ¬ E.i.overlaps (v.intersection tm.interval)) :
    tm.request_tiles v f =
      tm.fill f (v.intersection tm.interval)
        [TileID.mk (v.intersection tm.interval)] := by
  simp only [TileManager.request_tiles]
  rw [if_neg h1, if_neg h2, if_pos h3, h4]
  dsimp only
  rw [if_pos h5, if_neg h6, if_neg h7]

theorem request_tiles_eq_fresh_ratio (tm : TileManager) (v : Interval) (f : Bool)
    (E : TileID)
    (h1 : ¬ tm.slotLri f = some (v.intersection tm.interval))
    (h2 : ¬ (v.intersection tm.interval).duration_ns ≤ 0)
    (h3 : tm.tile_set.tiles.isEmpty = true)
    (h4 : envelopeFold (tm.slotCache f) = some E)
    (h5 : ¬ ratio_q (v.intersection tm.interval).duration_ns (tm.slotCache f) ≤ 2) :
    tm.request_tiles v f =
      tm.fill f (v.intersection tm.interval)
        [TileID.mk (v.intersection tm.interval)] := by
  simp only [TileManager.request_tiles]
  rw [if_neg h1, if_neg h2, if_pos h3, h4]
  dsimp only
  rw [if_neg h5]

theorem request_tiles_eq_static (tm : TileManager) (v : Interval) (f : Bool)
    (h1 : ¬ tm.slotLri f = some (v.intersection tm.interval))
    (h2 : ¬ (v.intersection tm.interval).duration_ns ≤ 0)
    (h3 : tm.tile_set.tiles.isEmpty = false) :
    tm.request_tiles v f =
      tm.fill f (v.intersection tm.interval)
        ((if f then tm.tile_set.tiles.getLastI
          else minByRatio (v.intersection tm.interval).duration_ns
            tm.tile_set.tiles).filter fun tile =>
              decide ((v.intersection tm.interval).overlaps tile.i)) := by
  simp only [TileManager.request_tiles]
  rw [if_neg h1, if_neg h2, if_neg (by simp [h3])]

end ProfViewer
namespace ProfViewer

/-- Every non-memo-hit call stores some list through `fill`. -/
theorem request_tiles_fill_form (tm : TileManager) (v : Interval) (f : Bool)
    (h1 : ¬ tm.slotLri f = some (v.intersection tm.interval)) :
    ∃ ts, tm.request_tiles v f = tm.fill f (v.intersection tm.interval) ts := by
  by_cases h2 : (v.intersection tm.interval).duration_ns ≤ 0
  · exact ⟨[], request_tiles_eq_empty tm v f h1 h2⟩
  cases h3 : tm.tile_set.tiles.isEmpty with
  | false =>
    exact ⟨_, request_tiles_eq_static tm v f h1 h2 h3⟩
  | true =>
    cases h4 : envelopeFold (tm.slotCache f) with
    | none => exact ⟨_, request_tiles_eq_fresh_none tm v f h1 h2 h3 h4⟩
    | some E =>
      by_cases h5 : ratio_q (v.intersection tm.interval).duration_ns
          (tm.slotCache f) ≤ 2
      · by_cases h6 : E.i.contains_interval (v.intersection tm.interval)
        · exact ⟨_, request_tiles_eq_reuse tm v f E h1 h2 h3 h4 h5 h6⟩
        · by_cases h7 : E.i.overlaps (v.intersection tm.interval)
          · exact ⟨_, request_tiles_eq_extend tm v f E h1 h2 h3 h4 h5 h6 h7⟩
          · exact ⟨_, request_tiles_eq_fresh_noov tm v f E h1 h2 h3 h4 h5 h6 h7⟩
      · exact ⟨_, request_tiles_eq_fresh_ratio tm v f E h1 h2 h3 h4 h5⟩

/-- After any call, the selected slot memoizes the request interval and
holds exactly the returned list; everything else is unchanged. -/
theorem request_tiles_post (tm : TileManager) (v : Interval) (f : Bool) :
    (tm.request_tiles v f).2.tile_set = tm.tile_set ∧
    (tm.request_tiles v f).2.interval = tm.interval ∧
    ((tm.request_tiles v f).2).slotLri f = some (v.intersection tm.interval) ∧
    ((tm.request_tiles v f).2).slotCache f = (tm.request_tiles v f).1 ∧
    ∀ g, g ≠ f →
      ((tm.request_tiles v f).2).slotLri g = tm.slotLri g ∧
      ((tm.request_tiles v f).2).slotCache g = tm.slotCache g := by
  by_cases h1 : tm.slotLri f = some (v.intersection tm.interval)
  · rw [request_tiles_eq_memo tm v f h1]
    exact ⟨rfl, rfl, h1, rfl, fun g _ => ⟨rfl, rfl⟩⟩
  · obtain ⟨ts, hts⟩ := request_tiles_fill_form tm v f h1
    rw [hts]
    exact ⟨rfl, rfl, slotLri_fill_self _ _ _ _,
      (slotCache_fill_self _ _ _ _).trans (fill_fst _ _ _ _).symm,
      fun g hg => ⟨slotLri_fill_other _ _ _ _ _ hg,
        slotCache_fill_other _ _ _ _ _ hg⟩⟩

/-- C4: for every tile-manager state (in particular every reachable one),
two consecutive `request_tiles` calls with the same view interval and the
same full flag return the same list, and the second call leaves the entire
state — both memo slots — unchanged. -/
theorem request_tiles_memo_stable (tm : TileManager) (v : Interval) (f : Bool) :
    (tm.request_tiles v f).2.request_tiles v f =
      ((tm.request_tiles v f).1, (tm.request_tiles v f).2) := by
  obtain ⟨hts, hint, hlri, hcache, _⟩ := request_tiles_post tm v f
  have hmemo : ((tm.request_tiles v f).2).slotLri f =
      some (v.intersection ((tm.request_tiles v f).2).interval) := by
    rw [hint, hlri]
  rw [request_tiles_eq_memo _ v f hmemo, hcache]

end ProfViewer
namespace ProfViewer

/-- C2: in dynamic mode, a non-memo-hit call with a non-empty request that
is served by returning the prior cache unchanged or by extending it — that
is, anything other than re-tiling to the single fresh tile `[TileID R]` —
can only happen when the zoom-drift ratio of the cache against the request
duration is at most 2. -/
theorem dynamic_drift_bound (tm : TileManager) (v : Interval) (f : Bool)
    (hdyn : tm.tile_set.tiles.isEmpty = true)
    (h1 : ¬ tm.slotLri f = some (v.intersection tm.interval))
    (hdur : 0 < (v.intersection tm.interval).duration_ns)
    (hres : (tm.request_tiles v f).1 ≠ [TileID.mk (v.intersection tm.interval)]) :
    ratio_q (v.intersection tm.interval).duration_ns (tm.slotCache f) ≤ 2 := by
  have h2 : ¬ (v.intersection tm.interval).duration_ns ≤ 0 := not_le.mpr hdur
  cases h4 : envelopeFold (tm.slotCache f) with
  | none =>
    exact absurd
      (by rw [request_tiles_eq_fresh_none tm v f h1 h2 hdyn h4, fill_fst]) hres
  | some E =>
    by_cases h5 : ratio_q (v.intersection tm.interval).duration_ns
        (tm.slotCache f) ≤ 2
    · exact h5
    · exact absurd
        (by rw [request_tiles_eq_fresh_ratio tm v f E h1 h2 hdyn h4 h5,
          fill_fst]) hres

set_option maxHeartbeats 1000000 in
theorem dynamic_drift_bound_witness :
    tmFixture.tile_set.tiles.isEmpty = true ∧
    ¬ tmFixture.slotLri false =
      some ((⟨10, 30⟩ : Interval).intersection tmFixture.interval) ∧
    0 < ((⟨10, 30⟩ : Interval).intersection tmFixture.interval).duration_ns ∧
    (tmFixture.request_tiles ⟨10, 30⟩ false).1 ≠
      [TileID.mk ((⟨10, 30⟩ : Interval).intersection tmFixture.interval)] ∧
    ratio_q ((⟨10, 30⟩ : Interval).intersection tmFixture.interval).duration_ns
      (tmFixture.slotCache false) ≤ 2 :=
  ⟨by decide, by decide, by decide, by decide,
    dynamic_drift_bound tmFixture ⟨10, 30⟩ false (by decide) (by decide)
      (by decide) (by decide)⟩

/-- `ceil_div` computes the exact ceiling of the rational quotient. -/
theorem ceil_div_eq_ceil (a b : Int) (hb : 0 < b) :
    ceil_div a b = ⌈(a : ℚ) / (b : ℚ)⌉ := by
  have hbq : (0 : ℚ) < (b : ℚ) := by exact_mod_cast hb
  have hmod := Int.ediv_add_emod (-a) b
  have hr0 : 0 ≤ (-a) % b := Int.emod_nonneg _ (ne_of_gt hb)
  have hrb : (-a) % b < b := Int.emod_lt_of_pos _ hb
  have ha : a = b * ceil_div a b - (-a) % b := by
    unfold ceil_div
    rw [mul_neg]
    omega
  symm
  rw [Int.ceil_eq_iff]
  constructor
  · rw [show ((ceil_div a b : ℚ) - 1) = (((ceil_div a b - 1 : ℤ)) : ℚ) by
      push_cast; ring, lt_div_iff₀ hbq]
    have : (ceil_div a b - 1) * b < a := by
      rw [sub_mul, one_mul, mul_comm]
      omega
    exact_mod_cast this
  · rw [div_le_iff₀ hbq]
    have : a ≤ ceil_div a b * b := by
      rw [mul_comm]
      omega
    exact_mod_cast this

/-- C1: the dynamic extension case in full: when the request is not a memo
hit, has positive duration, and the non-empty cache with envelope `E` and
ratio ≤ 2 overlaps the request without containing it, the returned list —
which also becomes the new cache, with the request memoized — is exactly
`nb = ⌈duration(R.subtract_after(E.start)) / T⌉` prepended translates of the
first cached tile, then the cache, then
`na = ⌈duration(R.subtract_before(E.stop)) / T⌉` appended translates of the
last cached tile, each clipped to the row interval, where `T` is the first
cached tile's duration. -/
theorem dynamic_extension_exact (tm : TileManager) (v : Interval) (f : Bool)
    (E : TileID)
    (hdyn : tm.tile_set.tiles.isEmpty = true)
    (h1 : ¬ tm.slotLri f = some (v.intersection tm.interval))
    (hdur : 0 < (v.intersection tm.interval).duration_ns)
    (h4 : envelopeFold (tm.slotCache f) = some E)
    (h5 : ratio_q (v.intersection tm.interval).duration_ns (tm.slotCache f) ≤ 2)
    (h6 : ¬ E.i.contains_interval (v.intersection tm.interval))
    (h7 : E.i.overlaps (v.intersection tm.interval))
    (hT : 0 < (tm.slotCache f).headI.i.duration_ns) :
    (tm.request_tiles v f).1 =
      ((List.range (⌈(((v.intersection tm.interval).subtract_after
            E.i.start).duration_ns : ℚ) /
          ((tm.slotCache f).headI.i.duration_ns : ℚ)⌉).toNat).map fun (k : ℕ) =>
        TileID.mk (((tm.slotCache f).headI.i.translate
          (((k : Int) -
            ⌈(((v.intersection tm.interval).subtract_after
                E.i.start).duration_ns : ℚ) /
              ((tm.slotCache f).headI.i.duration_ns : ℚ)⌉) *
            (tm.slotCache f).headI.i.duration_ns)).intersection tm.interval)) ++
      tm.slotCache f ++
      ((List.range (⌈(((v.intersection tm.interval).subtract_before
            E.i.stop).duration_ns : ℚ) /
          ((tm.slotCache f).headI.i.duration_ns : ℚ)⌉).toNat).map fun (k : ℕ) =>
        TileID.mk (((tm.slotCache f).getLastI.i.translate
          (((k : Int) + 1) *
            (tm.slotCache f).headI.i.duration_ns)).intersection tm.interval)) ∧
    ((tm.request_tiles v f).2).slotCache f = (tm.request_tiles v f).1 ∧
    ((tm.request_tiles v f).2).slotLri f =
      some (v.intersection tm.interval) := by
  have h2 : ¬ (v.intersection tm.interval).duration_ns ≤ 0 := not_le.mpr hdur
  have heq := request_tiles_eq_extend tm v f E h1 h2 hdyn h4 h5 h6 h7
  refine ⟨?_, ?_, ?_⟩
  · rw [heq, fill_fst]
    unfold extendTiles
    dsimp only
    simp only [ceil_div_eq_ceil _ _ hT, preTile, appTile]
  · rw [heq]
    exact (slotCache_fill_self _ _ _ _).trans (fill_fst _ _ _ _).symm
  · rw [heq]
    exact slotLri_fill_self _ _ _ _

set_option maxHeartbeats 1000000 in
theorem dynamic_extension_exact_witness :
    tmFixture.tile_set.tiles.isEmpty = true ∧
    ¬ tmFixture.slotLri false =
      some ((⟨10, 30⟩ : Interval).intersection tmFixture.interval) ∧
    0 < ((⟨10, 30⟩ : Interval).intersection tmFixture.interval).duration_ns ∧
    envelopeFold (tmFixture.slotCache false) = some (TileID.mk ⟨0, 20⟩) ∧
    ratio_q ((⟨10, 30⟩ : Interval).intersection tmFixture.interval).duration_ns
      (tmFixture.slotCache false) ≤ 2 ∧
    (tmFixture.request_tiles ⟨10, 30⟩ false).1 =
      [TileID.mk ⟨0, 20⟩, TileID.mk ⟨20, 40⟩] ∧
    ((tmFixture.request_tiles ⟨10, 30⟩ false).2).slotLri false =
      some ((⟨10, 30⟩ : Interval).intersection tmFixture.interval) :=
  ⟨by decide, by decide, by decide, by decide, by decide, by decide,
    (dynamic_extension_exact tmFixture ⟨10, 30⟩ false (TileID.mk ⟨0, 20⟩)
      (by decide) (by decide) (by decide) (by decide) (by decide) (by decide)
      (by decide) (by decide)).2.2⟩

end ProfViewer
namespace ProfViewer

theorem headI_mem {α : Type} [Inhabited α] {l : List α} (h : l ≠ []) :
    l.headI ∈ l := by
  cases l with
  | nil => exact absurd rfl h
  | cons a t => exact List.mem_cons_self a t

theorem getLastI_mem {α : Type} [Inhabited α] {l : List α} (h : l ≠ []) :
    l.getLastI ∈ l := by
  rw [List.getLastI_eq_getLast?, List.getLast?_eq_getLast l h]
  exact List.getLast_mem h

/-- The fold inside `minByRatio` returns the first minimum of the whole
list (accumulator included). -/
theorem foldl_min_spec (rd : Int) (h : List TileID) (t : List (List TileID)) :
    IsFirstMinRatio rd (h :: t)
      (t.foldl (fun acc lv => if ratio_q rd lv < ratio_q rd acc then lv else acc) h) := by
  induction t generalizing h with
  | nil => exact ⟨[], [], rfl, by simp, by simp⟩
  | cons b t ih =>
    simp only [List.foldl_cons]
    by_cases hb : ratio_q rd b < ratio_q rd h
    · rw [if_pos hb]
      obtain ⟨pre, post, heq, hpre, hpost⟩ := ih b
      have hrb : ratio_q rd
          (t.foldl (fun acc lv =>
            if ratio_q rd lv < ratio_q rd acc then lv else acc) b) ≤
          ratio_q rd b := by
        cases pre with
        | nil =>
          rw [List.nil_append] at heq
          injection heq with he ht
          rw [← he]
        | cons p0 pre2 =>
          rw [List.cons_append] at heq
          injection heq with he ht
          have hlt := hpre p0 (List.mem_cons_self _ _)
          rw [← he] at hlt
          exact le_of_lt hlt
      refine ⟨h :: pre, post, ?_, ?_, hpost⟩
      · rw [List.cons_append, ← heq]
      · intro p hp
        rcases List.mem_cons.mp hp with rfl | hp2
        · exact lt_of_le_of_lt hrb hb
        · exact hpre p hp2
    · rw [if_neg hb]
      have hh : ratio_q rd h ≤ ratio_q rd b := not_lt.mp hb
      obtain ⟨pre, post, heq, hpre, hpost⟩ := ih h
      cases pre with
      | nil =>
        rw [List.nil_append] at heq
        injection heq with he ht
        refine ⟨[], b :: t, ?_, by simp, ?_⟩
        · rw [List.nil_append, ← he]
        · intro p hp
          rcases List.mem_cons.mp hp with rfl | hp2
          · rw [← he]
            exact hh
          · rw [← he]
            rw [← he] at hpost
            exact hpost p (ht ▸ hp2)
      | cons p0 pre2 =>
        rw [List.cons_append] at heq
        injection heq with he ht
        have hlth : ratio_q rd
            (t.foldl (fun acc lv =>
              if ratio_q rd lv < ratio_q rd acc then lv else acc) h) <
            ratio_q rd h := by
          have := hpre p0 (List.mem_cons_self _ _)
          rwa [← he] at this
        refine ⟨h :: b :: pre2, post, ?_, ?_, hpost⟩
        · rw [List.cons_append, List.cons_append, ← ht]
        · intro p hp
          rcases List.mem_cons.mp hp with rfl | hp2
          · exact hlth
          · rcases List.mem_cons.mp hp2 with rfl | hp3
            · exact lt_of_lt_of_le hlth hh
            · exact hpre p (List.mem_cons_of_mem _ hp3)

/-- `minByRatio` picks the first level of minimum ratio. -/
theorem minByRatio_spec (rd : Int) (levels : List (List TileID))
    (h : levels ≠ []) :
    IsFirstMinRatio rd levels (minByRatio rd levels) := by
  cases levels with
  | nil => exact absurd rfl h
  | cons l rest => exact foldl_min_spec rd l rest

/-- C3: in static mode, a non-memo-hit call with non-empty request interval
chooses the last (finest) level when `full` is true, and otherwise the level
minimizing the ratio with ties broken in favor of the earlier level; the
returned list is exactly the chosen level filtered, order preserved, to the
tiles whose interval overlaps the request (half-open), and it is stored as
the new cache with the request interval memoized. -/
theorem static_selection (tm : TileManager) (v : Interval) (f : Bool)
    (hstat : tm.tile_set.tiles.isEmpty = false)
    (h1 : ¬ tm.slotLri f = some (v.intersection tm.interval))
    (hdur : 0 < (v.intersection tm.interval).duration_ns) :
    (f = true → (tm.request_tiles v f).1 =
      (tm.tile_set.tiles.getLastI).filter fun t =>
        decide ((v.intersection tm.interval).overlaps t.i)) ∧
    (f = false → ∃ lvl,
      IsFirstMinRatio (v.intersection tm.interval).duration_ns
        tm.tile_set.tiles lvl ∧
      (tm.request_tiles v f).1 = lvl.filter fun t =>
        decide ((v.intersection tm.interval).overlaps t.i)) ∧
    ((tm.request_tiles v f).2).slotCache f = (tm.request_tiles v f).1 ∧
    ((tm.request_tiles v f).2).slotLri f = some (v.intersection tm.interval) := by
  have h2 : ¬ (v.intersection tm.interval).duration_ns ≤ 0 := not_le.mpr hdur
  have hne : tm.tile_set.tiles ≠ [] := by
    intro hnil
    rw [hnil] at hstat
    simp at hstat
  have heq := request_tiles_eq_static tm v f h1 h2 hstat
  refine ⟨?_, ?_, ?_, ?_⟩
  · intro hf
    rw [heq, fill_fst, hf, if_pos rfl]
  · intro hf
    refine ⟨minByRatio (v.intersection tm.interval).duration_ns
      tm.tile_set.tiles, minByRatio_spec _ _ hne, ?_⟩
    rw [heq, fill_fst, hf]
    simp only [Bool.false_eq_true, if_false]
  · rw [heq]
    exact (slotCache_fill_self _ _ _ _).trans (fill_fst _ _ _ _).symm
  · rw [heq]
    exact slotLri_fill_self _ _ _ _

set_option maxHeartbeats 1000000 in
theorem static_selection_witness :
    (TileManager.new tsFixture ⟨0, 100⟩).tile_set.tiles.isEmpty = false ∧
    ¬ (TileManager.new tsFixture ⟨0, 100⟩).slotLri false =
      some ((⟨10, 90⟩ : Interval).intersection
        (TileManager.new tsFixture ⟨0, 100⟩).interval) ∧
    0 < ((⟨10, 90⟩ : Interval).intersection
      (TileManager.new tsFixture ⟨0, 100⟩).interval).duration_ns ∧
    ((TileManager.new tsFixture ⟨0, 100⟩).request_tiles ⟨10, 90⟩ false).1 =
      [TileID.mk ⟨0, 100⟩] ∧
    (((TileManager.new tsFixture ⟨0, 100⟩).request_tiles ⟨10, 90⟩ false).2).slotLri
        false =
      some ((⟨10, 90⟩ : Interval).intersection
        (TileManager.new tsFixture ⟨0, 100⟩).interval) :=
  ⟨by decide, by decide, by decide, by decide,
    (static_selection (TileManager.new tsFixture ⟨0, 100⟩) ⟨10, 90⟩ false
      (by decide) (by decide) (by decide)).2.2.2⟩

end ProfViewer
namespace ProfViewer

/-- All tiles of a cache sit inside the row interval. -/
def CacheWithin (I : Interval) (c : List TileID) : Prop :=
  ∀ t ∈ c, I.contains_interval t.i

theorem isFirstMin_mem {rd : Int} {levels : List (List TileID)}
    {l : List TileID} (h : IsFirstMinRatio rd levels l) : l ∈ levels := by
  obtain ⟨pre, post, heq, _, _⟩ := h
  rw [heq]
  exact List.mem_append_right pre (List.mem_cons_self _ _)

/-- Tiles produced by the extension arm are clipped to the row interval, so
containment of the cache is preserved. -/
theorem extendTiles_within (I : Interval) (c : List TileID) (E R : Interval)
    (hc : CacheWithin I c) : CacheWithin I (extendTiles I c E R) := by
  intro t ht
  unfold extendTiles at ht
  simp only [List.mem_append, List.mem_map, List.mem_range] at ht
  rcases ht with (⟨k, _, rfl⟩ | hmid) | ⟨k, _, rfl⟩
  · exact ⟨le_max_right _ _, min_le_right _ _⟩
  · exact hc t hmid
  · exact ⟨le_max_right _ _, min_le_right _ _⟩

/-- The returned list is always one of: the old cache, empty, the single
fresh tile, an extension of the cache, or a filtered static level. -/
theorem request_tiles_result_cases (tm : TileManager) (v : Interval) (f : Bool) :
    (tm.request_tiles v f).1 = tm.slotCache f ∨
    (tm.request_tiles v f).1 = [] ∨
    (tm.request_tiles v f).1 = [TileID.mk (v.intersection tm.interval)] ∨
    (∃ E : TileID, envelopeFold (tm.slotCache f) = some E ∧
      (tm.request_tiles v f).1 =
        extendTiles tm.interval (tm.slotCache f) E.i
          (v.intersection tm.interval)) ∨
    (tm.tile_set.tiles.isEmpty = false ∧ ∃ lvl ∈ tm.tile_set.tiles,
      (tm.request_tiles v f).1 = lvl.filter fun t =>
        decide ((v.intersection tm.interval).overlaps t.i)) := by
  by_cases h1 : tm.slotLri f = some (v.intersection tm.interval)
  · left
    rw [request_tiles_eq_memo tm v f h1]
  by_cases h2 : (v.intersection tm.interval).duration_ns ≤ 0
  · right; left
    rw [request_tiles_eq_empty tm v f h1 h2, fill_fst]
  cases h3 : tm.tile_set.tiles.isEmpty with
  | false =>
    right; right; right; right
    refine ⟨rfl, ?_⟩
    have hne : tm.tile_set.tiles ≠ [] := by
      intro hnil
      rw [hnil] at h3
      simp at h3
    rw [request_tiles_eq_static tm v f h1 h2 h3, fill_fst]
    cases f with
    | true =>
      exact ⟨tm.tile_set.tiles.getLastI, getLastI_mem hne, by rw [if_pos rfl]⟩
    | false =>
      refine ⟨minByRatio (v.intersection tm.interval).duration_ns
        tm.tile_set.tiles,
        isFirstMin_mem (minByRatio_spec _ _ hne), ?_⟩
      simp only [Bool.false_eq_true, if_false]
  | true =>
    cases h4 : envelopeFold (tm.slotCache f) with
    | none =>
      right; right; left
      rw [request_tiles_eq_fresh_none tm v f h1 h2 h3 h4, fill_fst]
    | some E =>
      by_cases h5 : ratio_q (v.intersection tm.interval).duration_ns
          (tm.slotCache f) ≤ 2
      · by_cases h6 : E.i.contains_interval (v.intersection tm.interval)
        · left
          rw [request_tiles_eq_reuse tm v f E h1 h2 h3 h4 h5 h6, fill_fst]
        · by_cases h7 : E.i.overlaps (v.intersection tm.interval)
          · right; right; right; left
            refine ⟨E, rfl, ?_⟩
            rw [request_tiles_eq_extend tm v f E h1 h2 h3 h4 h5 h6 h7,
              fill_fst]
          · right; right; left
            rw [request_tiles_eq_fresh_noov tm v f E h1 h2 h3 h4 h5 h6 h7,
              fill_fst]
      · right; right; left
        rw [request_tiles_eq_fresh_ratio tm v f E h1 h2 h3 h4 h5, fill_fst]

/-- Along any reachable run, the construction parameters are fixed and both
caches stay inside the row interval (given a well-formed static tile set). -/
theorem cacheWithin_reachable (ts : TileSet) (I : Interval) (tm : TileManager)
    (hts : ts.tiles = [] ∨ TilesWithin ts I) (hre : Reachable ts I tm) :
    tm.tile_set = ts ∧ tm.interval = I ∧
    ∀ f, CacheWithin I (tm.slotCache f) := by
  induction hre with
  | init =>
    refine ⟨rfl, rfl, fun f => ?_⟩
    intro t ht
    cases f <;> simp [TileManager.new, TileManager.slotCache] at ht
  | step tm v f hre ih =>
    obtain ⟨hts2, hint, hinv⟩ := ih
    obtain ⟨pts, pint, plri, pcache, pother⟩ := request_tiles_post tm v f
    refine ⟨pts.trans hts2, pint.trans hint, fun g => ?_⟩
    by_cases hg : g = f
    · subst hg
      rw [pcache]
      rcases request_tiles_result_cases tm v g with
        hr | hr | hr | ⟨E, hE, hr⟩ | ⟨hst, lvl, hlvl, hr⟩
      · rw [hr]
        exact hinv g
      · rw [hr]
        intro t ht
        simp at ht
      · rw [hr]
        intro t ht
        rw [List.mem_singleton] at ht
        subst ht
        rw [← hint]
        exact ⟨le_max_right _ _, min_le_right _ _⟩
      · rw [hr, ← hint]
        exact extendTiles_within tm.interval _ _ _
          (fun t ht => hint ▸ hinv g t ht)
      · rw [hr]
        intro t ht
        rcases hts with hnil | hwithin
        · rw [hts2, hnil] at hst
          simp at hst
        · exact hwithin lvl (hts2 ▸ hlvl) t (List.mem_of_mem_filter ht)
    · rw [(pother g hg).2]
      exact hinv g

/-- C6: for every reachable tile-manager state (over a tile set whose
levels, per the data model, lie within the row interval) and every call of
`request_tiles`, every `TileID` in the returned list — equivalently, by
`request_tiles_post`, in the memo slot's cache afterwards — has an interval
contained in `self.interval`. -/
theorem tiles_contained (ts : TileSet) (I : Interval) (tm : TileManager)
    (v : Interval) (f : Bool)
    (hts : ts.tiles = [] ∨ TilesWithin ts I)
    (hre : Reachable ts I tm) :
    ∀ t ∈ (tm.request_tiles v f).1, tm.interval.contains_interval t.i := by
  obtain ⟨hts2, hint, hinv⟩ :=
    cacheWithin_reachable ts I ((tm.request_tiles v f).2) hts
      (Reachable.step tm v f hre)
  obtain ⟨pts, pint, plri, pcache, pother⟩ := request_tiles_post tm v f
  intro t ht
  rw [← pcache] at ht
  have hc := hinv f t ht
  have hII : tm.interval = I := by rw [← pint, hint]
  rw [hII]
  exact hc

theorem tiles_contained_witness :
    ((⟨[]⟩ : TileSet).tiles = [] ∨ TilesWithin ⟨[]⟩ ⟨0, 10⟩) ∧
    Reachable ⟨[]⟩ ⟨0, 10⟩ (TileManager.new ⟨[]⟩ ⟨0, 10⟩) ∧
    ∀ t ∈ ((TileManager.new ⟨[]⟩ ⟨0, 10⟩).request_tiles ⟨0, 10⟩ false).1,
      (TileManager.new ⟨[]⟩ ⟨0, 10⟩).interval.contains_interval t.i :=
  ⟨Or.inl rfl, Reachable.init,
    tiles_contained ⟨[]⟩ ⟨0, 10⟩ (TileManager.new ⟨[]⟩ ⟨0, 10⟩) ⟨0, 10⟩ false
      (Or.inl rfl) Reachable.init⟩

end ProfViewer
namespace ProfViewer

/-! ## Envelope lemmas -/

theorem foldl_union_bounds (h : TileID) (t : List TileID) :
    ((t.foldl (fun a b => TileID.mk (a.i.union b.i)) h).i.start ≤ h.i.start ∧
     h.i.stop ≤ (t.foldl (fun a b => TileID.mk (a.i.union b.i)) h).i.stop) ∧
    (∀ x ∈ t,
      (t.foldl (fun a b => TileID.mk (a.i.union b.i)) h).i.start ≤ x.i.start ∧
      x.i.stop ≤ (t.foldl (fun a b => TileID.mk (a.i.union b.i)) h).i.stop) ∧
    (∃ a, (a = h ∨ a ∈ t) ∧
      a.i.start = (t.foldl (fun a b => TileID.mk (a.i.union b.i)) h).i.start) ∧
    (∃ a, (a = h ∨ a ∈ t) ∧
      a.i.stop = (t.foldl (fun a b => TileID.mk (a.i.union b.i)) h).i.stop) := by
  induction t generalizing h with
  | nil => exact ⟨⟨le_refl _, le_refl _⟩, by simp, ⟨h, Or.inl rfl, rfl⟩,
      ⟨h, Or.inl rfl, rfl⟩⟩
  | cons b t ih =>
    simp only [List.foldl_cons]
    obtain ⟨⟨ih1, ih2⟩, ih3, ⟨a1, ha1, he1⟩, ⟨a2, ha2, he2⟩⟩ :=
      ih (TileID.mk (h.i.union b.i))
    have hu1 : (TileID.mk (h.i.union b.i)).i.start =
        min h.i.start b.i.start := rfl
    have hu2 : (TileID.mk (h.i.union b.i)).i.stop =
        max h.i.stop b.i.stop := rfl
    refine ⟨⟨?_, ?_⟩, ?_, ?_, ?_⟩
    · exact le_trans ih1 (by rw [hu1]; exact min_le_left _ _)
    · exact le_trans (by rw [hu2]; exact le_max_left _ _) ih2
    · intro x hx
      rcases List.mem_cons.mp hx with rfl | hx2
      · exact ⟨le_trans ih1 (by rw [hu1]; exact min_le_right _ _),
          le_trans (by rw [hu2]; exact le_max_right _ _) ih2⟩
      · exact ih3 x hx2
    · rcases ha1 with rfl | ha1in
      · rcases min_cases h.i.start b.i.start with ⟨hmin, _⟩ | ⟨hmin, _⟩
        · refine ⟨h, Or.inl rfl, ?_⟩
          rw [← he1, hu1, hmin]
        · refine ⟨b, Or.inr (List.mem_cons_self _ _), ?_⟩
          rw [← he1, hu1, hmin]
      · exact ⟨a1, Or.inr (List.mem_cons_of_mem _ ha1in), he1⟩
    · rcases ha2 with rfl | ha2in
      · rcases max_cases h.i.stop b.i.stop with ⟨hmax, _⟩ | ⟨hmax, _⟩
        · refine ⟨h, Or.inl rfl, ?_⟩
          rw [← he2, hu2, hmax]
        · refine ⟨b, Or.inr (List.mem_cons_self _ _), ?_⟩
          rw [← he2, hu2, hmax]
      · exact ⟨a2, Or.inr (List.mem_cons_of_mem _ ha2in), he2⟩

theorem cacheEnv_bounds {c : List TileID} (hc : c ≠ []) :
    ∀ t ∈ c, (cacheEnv c).start ≤ t.i.start ∧ t.i.stop ≤ (cacheEnv c).stop := by
  cases c with
  | nil => exact absurd rfl hc
  | cons h t =>
    intro x hx
    have henv : cacheEnv (h :: t) =
        (t.foldl (fun a b => TileID.mk (a.i.union b.i)) h).i := rfl
    obtain ⟨hh, hmem, _, _⟩ := foldl_union_bounds h t
    rw [henv]
    rcases List.mem_cons.mp hx with rfl | hx2
    · exact hh
    · exact hmem x hx2

theorem cacheEnv_attained {c : List TileID} (hc : c ≠ []) :
    (∃ a ∈ c, a.i.start = (cacheEnv c).start) ∧
    (∃ a ∈ c, a.i.stop = (cacheEnv c).stop) := by
  cases c with
  | nil => exact absurd rfl hc
  | cons h t =>
    have henv : cacheEnv (h :: t) =
        (t.foldl (fun a b => TileID.mk (a.i.union b.i)) h).i := rfl
    obtain ⟨_, _, ⟨a1, ha1, he1⟩, ⟨a2, ha2, he2⟩⟩ := foldl_union_bounds h t
    rw [henv]
    constructor
    · refine ⟨a1, ?_, he1⟩
      rcases ha1 with rfl | h1
      · exact List.mem_cons_self _ _
      · exact List.mem_cons_of_mem _ h1
    · refine ⟨a2, ?_, he2⟩
      rcases ha2 with rfl | h2
      · exact List.mem_cons_self _ _
      · exact List.mem_cons_of_mem _ h2

theorem cacheEnv_start_eq_headI {c : List TileID} (hc : c ≠ [])
    (hmin : ∀ t ∈ c, c.headI.i.start ≤ t.i.start) :
    (cacheEnv c).start = c.headI.i.start := by
  obtain ⟨⟨a, ha, he⟩, _⟩ := cacheEnv_attained hc
  exact le_antisymm (cacheEnv_bounds hc _ (headI_mem hc)).1 (he ▸ hmin a ha)

theorem cacheEnv_stop_eq_getLastI {c : List TileID} (hc : c ≠ [])
    (hmax : ∀ t ∈ c, t.i.stop ≤ c.getLastI.i.stop) :
    (cacheEnv c).stop = c.getLastI.i.stop := by
  obtain ⟨_, ⟨a, ha, he⟩⟩ := cacheEnv_attained hc
  exact le_antisymm (he ▸ hmax a ha) (cacheEnv_bounds hc _ (getLastI_mem hc)).2

theorem cacheEnv_of_envelopeFold {c : List TileID} {E : TileID}
    (h : envelopeFold c = some E) : cacheEnv c = E.i := by
  unfold cacheEnv
  rw [h]

theorem envelopeFold_ne_nil {c : List TileID} {E : TileID}
    (h : envelopeFold c = some E) : c ≠ [] := by
  intro hnil
  rw [hnil] at h
  exact Option.noConfusion h

/-! ## Arithmetic of `ceil_div` -/

theorem ceil_div_identity (a b : Int) (hb : 0 < b) :
    a = b * ceil_div a b - (-a) % b := by
  have hmod := Int.ediv_add_emod (-a) b
  unfold ceil_div
  rw [mul_neg]
  omega

theorem le_mul_ceil_div (a b : Int) (hb : 0 < b) : a ≤ b * ceil_div a b := by
  have h0 := Int.emod_nonneg (-a) (ne_of_gt hb)
  have hid := ceil_div_identity a b hb
  omega

theorem mul_pred_ceil_div_lt (a b : Int) (hb : 0 < b) :
    b * (ceil_div a b - 1) < a := by
  have h1 := Int.emod_lt_of_pos (-a) hb
  have hid := ceil_div_identity a b hb
  have hexp : b * (ceil_div a b - 1) = b * ceil_div a b - b := by ring
  omega

theorem ceil_div_pos (a b : Int) (hb : 0 < b) (ha : 0 < a) :
    0 < ceil_div a b := by
  by_contra hcon
  push_neg at hcon
  have h1 := le_mul_ceil_div a b hb
  have h2 : b * ceil_div a b ≤ 0 :=
    mul_nonpos_of_nonneg_of_nonpos hb.le hcon
  omega

theorem ceil_div_nonpos (a b : Int) (hb : 0 < b) (ha : a ≤ 0) :
    ceil_div a b ≤ 0 := by
  by_contra hcon
  push_neg at hcon
  have h1 := mul_pred_ceil_div_lt a b hb
  have h2 : 0 ≤ b * (ceil_div a b - 1) := mul_nonneg hb.le (by omega)
  omega

theorem ceil_div_le (a b k : Int) (hb : 0 < b) (h : a ≤ b * k) :
    ceil_div a b ≤ k := by
  have h1 := mul_pred_ceil_div_lt a b hb
  have h2 : b * (ceil_div a b - 1) < b * k := lt_of_lt_of_le h1 h
  have := (mul_lt_mul_left hb).mp h2
  omega

/-! ## List helpers -/

theorem headI_append {α : Type} [Inhabited α] {xs ys : List α} (h : xs ≠ []) :
    (xs ++ ys).headI = xs.headI := by
  cases xs with
  | nil => exact absurd rfl h
  | cons a t => rfl

theorem getLastI_append {α : Type} [Inhabited α] (xs : List α) {ys : List α}
    (h : ys ≠ []) : (xs ++ ys).getLastI = ys.getLastI := by
  rw [List.getLastI_eq_getLast?, List.getLastI_eq_getLast?,
    List.getLast?_append_of_ne_nil xs h]

theorem headI_range_map {n : ℕ} (hn : 0 < n) (f : ℕ → TileID) :
    ((List.range n).map f).headI = f 0 := by
  cases n with
  | zero => omega
  | succ m =>
    rw [List.range_succ_eq_map]
    rfl

theorem getLastI_range_map {n : ℕ} (hn : 0 < n) (f : ℕ → TileID) :
    ((List.range n).map f).getLastI = f (n - 1) := by
  cases n with
  | zero => omega
  | succ m =>
    rw [List.range_succ, List.map_append]
    rw [getLastI_append _ (by simp)]
    rfl

end ProfViewer
namespace ProfViewer

/-! ## Facts about the extension context -/

theorem ExtCtx.hT {I R : Interval} {c : List TileID} (hx : ExtCtx I R c) :
    0 < c.headI.i.duration_ns :=
  (hx.hin _ (headI_mem hx.hc)).2

theorem ExtCtx.hTL {I R : Interval} {c : List TileID} (hx : ExtCtx I R c) :
    0 < c.getLastI.i.duration_ns :=
  (hx.hin _ (getLastI_mem hx.hc)).2

theorem ExtCtx.envI1 {I R : Interval} {c : List TileID} (hx : ExtCtx I R c) :
    I.start ≤ (cacheEnv c).start :=
  hx.hhead ▸ (hx.hin _ (headI_mem hx.hc)).1.1

theorem ExtCtx.envI2 {I R : Interval} {c : List TileID} (hx : ExtCtx I R c) :
    (cacheEnv c).stop ≤ I.stop :=
  hx.hlast ▸ (hx.hin _ (getLastI_mem hx.hc)).1.2

theorem ExtCtx.head_stop {I R : Interval} {c : List TileID}
    (hx : ExtCtx I R c) :
    c.headI.i.stop = (cacheEnv c).start + c.headI.i.duration_ns := by
  have h := hx.hhead
  simp only [Interval.duration_ns]
  omega

theorem ExtCtx.last_start {I R : Interval} {c : List TileID}
    (hx : ExtCtx I R c) :
    c.getLastI.i.start = (cacheEnv c).stop - c.getLastI.i.duration_ns := by
  have h := hx.hlast
  simp only [Interval.duration_ns]
  omega

theorem ExtCtx.envlt {I R : Interval} {c : List TileID} (hx : ExtCtx I R c) :
    (cacheEnv c).start < (cacheEnv c).stop := by
  have h1 := (cacheEnv_bounds hx.hc _ (headI_mem hx.hc)).2
  have h2 := hx.head_stop
  have h3 := hx.hT
  omega

theorem ExtCtx.env_le_last_start {I R : Interval} {c : List TileID}
    (hx : ExtCtx I R c) :
    (cacheEnv c).start ≤ c.getLastI.i.start :=
  (cacheEnv_bounds hx.hc _ (getLastI_mem hx.hc)).1

theorem ExtCtx.db_eq {I R : Interval} {c : List TileID} (hx : ExtCtx I R c) :
    (R.subtract_after (cacheEnv c).start).duration_ns =
      (cacheEnv c).start - R.start := by
  have h := hx.hov.1
  simp only [Interval.subtract_after, Interval.duration_ns]
  omega

theorem ExtCtx.da_eq {I R : Interval} {c : List TileID} (hx : ExtCtx I R c) :
    (R.subtract_before (cacheEnv c).stop).duration_ns =
      R.stop - (cacheEnv c).stop := by
  have h := hx.hov.2
  simp only [Interval.subtract_before, Interval.duration_ns]
  omega

/-- The extension list, normalized: counts taken of the envelope gaps. -/
theorem ExtCtx.ext_eq {I R : Interval} {c : List TileID} (hx : ExtCtx I R c) :
    extendTiles I c (cacheEnv c) R =
      ((List.range (ceil_div ((cacheEnv c).start - R.start)
          c.headI.i.duration_ns).toNat).map
        (preTile I c.headI.i
          (ceil_div ((cacheEnv c).start - R.start) c.headI.i.duration_ns)
          c.headI.i.duration_ns)) ++ c ++
      ((List.range (ceil_div (R.stop - (cacheEnv c).stop)
          c.headI.i.duration_ns).toNat).map
        (appTile I c.getLastI.i c.headI.i.duration_ns)) := by
  unfold extendTiles
  dsimp only
  rw [hx.db_eq, hx.da_eq]

/-- If any tile is appended, the last cached tile is at least one tile size
long (otherwise it was truncated at the row edge and nothing fits after). -/
theorem ExtCtx.TL_ge {I R : Interval} {c : List TileID} (hx : ExtCtx I R c)
    (hpos : 0 < ceil_div (R.stop - (cacheEnv c).stop) c.headI.i.duration_ns) :
    c.headI.i.duration_ns ≤ c.getLastI.i.duration_ns := by
  by_contra hlt
  push_neg at hlt
  have hstop := hx.hg hlt
  have hda : 0 < R.stop - (cacheEnv c).stop := by
    by_contra hda
    push_neg at hda
    have := ceil_div_nonpos _ _ hx.hT hda
    omega
  have h1 := hx.hRe
  have h2 := hx.hlast
  omega

/-! ## Point coverage of the prepended and appended runs -/

theorem pre_coversPt (I H : Interval) (nb T : Int)
    (hT : 0 < T) (hHT : H.stop = H.start + T) (hHI : H.start ≤ I.stop)
    (x : Int) (hxI : I.start ≤ x) (hxlo : H.start - T * nb ≤ x)
    (hxhi : x < H.start) :
    CoversPt ((List.range nb.toNat).map (preTile I H nb T)) x := by
  have hj1 : 0 < ceil_div (H.start - x) T := ceil_div_pos _ _ hT (by omega)
  have hjnb : ceil_div (H.start - x) T ≤ nb :=
    ceil_div_le _ _ _ hT (by linarith)
  have hjle := le_mul_ceil_div (H.start - x) T hT
  have hjlt := mul_pred_ceil_div_lt (H.start - x) T hT
  refine ⟨preTile I H nb T (nb - ceil_div (H.start - x) T).toNat,
    List.mem_map_of_mem _ (List.mem_range.mpr (by omega)), ?_, ?_⟩
  · show max (H.start + ((((nb - ceil_div (H.start - x) T).toNat : Int)) - nb) * T)
      I.start ≤ x
    have hcast : (((nb - ceil_div (H.start - x) T).toNat : Int)) =
        nb - ceil_div (H.start - x) T := by omega
    rw [hcast]
    have hmul : (nb - ceil_div (H.start - x) T - nb) * T =
        -(T * ceil_div (H.start - x) T) := by ring
    rw [hmul]
    exact max_le (by linarith) hxI
  · show x < min (H.stop + ((((nb - ceil_div (H.start - x) T).toNat : Int)) - nb) * T)
      I.stop
    have hcast : (((nb - ceil_div (H.start - x) T).toNat : Int)) =
        nb - ceil_div (H.start - x) T := by omega
    rw [hcast, hHT]
    have hmul : (nb - ceil_div (H.start - x) T - nb) * T =
        -(T * ceil_div (H.start - x) T) := by ring
    rw [hmul]
    have hexp : T * (ceil_div (H.start - x) T - 1) =
        T * ceil_div (H.start - x) T - T := by ring
    exact lt_min (by linarith) (by omega)

theorem app_coversPt (I L : Interval) (na T : Int)
    (hT : 0 < T) (hTL : T ≤ L.stop - L.start) (hIs : I.start ≤ L.start)
    (x : Int) (hxlo : L.stop ≤ x) (hxhi : x < L.stop + T * na)
    (hxI : x < I.stop) :
    CoversPt ((List.range na.toNat).map (appTile I L T)) x := by
  have hq := Int.ediv_add_emod (x - L.stop) T
  have hr0 : 0 ≤ (x - L.stop) % T := Int.emod_nonneg _ (ne_of_gt hT)
  have hrT : (x - L.stop) % T < T := Int.emod_lt_of_pos _ hT
  have hq0 : 0 ≤ (x - L.stop) / T := Int.ediv_nonneg (by omega) hT.le
  have hq1 : T * ((x - L.stop) / T) ≤ x - L.stop := by linarith
  have hq2 : x - L.stop < T * ((x - L.stop) / T) + T := by linarith
  have hqna : (x - L.stop) / T < na := by
    have h2 : T * ((x - L.stop) / T) < T * na := by linarith
    exact lt_of_mul_lt_mul_left h2 hT.le
  refine ⟨appTile I L T ((x - L.stop) / T).toNat,
    List.mem_map_of_mem _ (List.mem_range.mpr (by omega)), ?_, ?_⟩
  · show max (L.start + (((((x - L.stop) / T).toNat : Int)) + 1) * T)
      I.start ≤ x
    have hcast : ((((x - L.stop) / T).toNat : Int)) = (x - L.stop) / T := by
      omega
    rw [hcast]
    have hexp : ((x - L.stop) / T + 1) * T = T * ((x - L.stop) / T) + T := by
      ring
    rw [hexp]
    exact max_le (by linarith) (by linarith)
  · show x < min (L.stop + (((((x - L.stop) / T).toNat : Int)) + 1) * T)
      I.stop
    have hcast : ((((x - L.stop) / T).toNat : Int)) = (x - L.stop) / T := by
      omega
    rw [hcast]
    have hexp : ((x - L.stop) / T + 1) * T = T * ((x - L.stop) / T) + T := by
      ring
    rw [hexp]
    exact lt_min (by linarith) hxI

end ProfViewer
namespace ProfViewer

theorem CoversPt.append_left {A : List TileID} (B : List TileID) {x : Int}
    (h : CoversPt A x) : CoversPt (A ++ B) x := by
  obtain ⟨t, ht, h1, h2⟩ := h
  exact ⟨t, List.mem_append_left B ht, h1, h2⟩

theorem CoversPt.append_right (A : List TileID) {B : List TileID} {x : Int}
    (h : CoversPt B x) : CoversPt (A ++ B) x := by
  obtain ⟨t, ht, h1, h2⟩ := h
  exact ⟨t, List.mem_append_right A ht, h1, h2⟩

/-- The extended list covers the whole request interval. -/
theorem ext_covers_R {I R : Interval} {c : List TileID} (hx : ExtCtx I R c) :
    Covers (extendTiles I c (cacheEnv c) R) R := by
  intro x hx1 hx2
  rw [hx.ext_eq]
  have hT := hx.hT
  have hhead := hx.hhead
  have hlast := hx.hlast
  have hstop := hx.head_stop
  have henvlt := hx.envlt
  have henvI1 := hx.envI1
  have henvI2 := hx.envI2
  by_cases hxlt : x < (cacheEnv c).start
  · apply CoversPt.append_left
    apply CoversPt.append_left
    apply pre_coversPt _ _ _ _ hT (by omega) (by omega) _ (by
      have := hx.hRs
      omega)
    · have hle := le_mul_ceil_div ((cacheEnv c).start - R.start)
        c.headI.i.duration_ns hT
      have := hx.hRs
      -- H.start - T * nb ≤ x
      rw [hhead]
      linarith
    · omega
  · by_cases hxlt2 : x < (cacheEnv c).stop
    · apply CoversPt.append_left
      apply CoversPt.append_right
      exact hx.hcov x (by omega) hxlt2
    · have hEex : (cacheEnv c).stop ≤ x := not_lt.mp hxlt2
      have hna : 0 < ceil_div (R.stop - (cacheEnv c).stop)
          c.headI.i.duration_ns :=
        ceil_div_pos _ _ hT (by omega)
      have hTLge := hx.TL_ge hna
      apply CoversPt.append_right
      apply app_coversPt _ _ _ _ hT
        (by
          have := hx.hTL
          simp only [Interval.duration_ns] at hTLge ⊢
          omega)
        ((hx.hin _ (getLastI_mem hx.hc)).1.1)
      · omega
      · have hle := le_mul_ceil_div (R.stop - (cacheEnv c).stop)
          c.headI.i.duration_ns hT
        rw [hlast]
        linarith
      · have := hx.hRe
        omega

end ProfViewer
namespace ProfViewer

/-- Every tile of the extended list lies in the row interval and has
positive duration. -/
theorem ext_mem_spec {I R : Interval} {c : List TileID} (hx : ExtCtx I R c) :
    ∀ t ∈ extendTiles I c (cacheEnv c) R,
      I.contains_interval t.i ∧ 0 < t.i.duration_ns := by
  have hT := hx.hT
  have hhead := hx.hhead
  have hlast := hx.hlast
  have hstop := hx.head_stop
  have hls := hx.last_start
  have henvlt := hx.envlt
  have henvI1 := hx.envI1
  have henvI2 := hx.envI2
  have hRs := hx.hRs
  have hRe := hx.hRe
  rw [hx.ext_eq]
  intro t ht
  simp only [List.mem_append, List.mem_map, List.mem_range] at ht
  rcases ht with (⟨k, hk, rfl⟩ | hmid) | ⟨k, hk, rfl⟩
  · refine ⟨⟨le_max_right _ _, min_le_right _ _⟩, ?_⟩
    have hkc : (k : Int) <
        ceil_div ((cacheEnv c).start - R.start) c.headI.i.duration_ns := by
      omega
    have hnb1 := mul_pred_ceil_div_lt ((cacheEnv c).start - R.start)
      c.headI.i.duration_ns hT
    have hrepr : (preTile I c.headI.i
        (ceil_div ((cacheEnv c).start - R.start) c.headI.i.duration_ns)
        c.headI.i.duration_ns k).i.duration_ns =
        min (c.headI.i.stop + ((k : Int) -
            ceil_div ((cacheEnv c).start - R.start) c.headI.i.duration_ns) *
            c.headI.i.duration_ns) I.stop -
        max (c.headI.i.start + ((k : Int) -
            ceil_div ((cacheEnv c).start - R.start) c.headI.i.duration_ns) *
            c.headI.i.duration_ns) I.start := rfl
    rw [hrepr]
    have hb1 : ((k : Int) -
        ceil_div ((cacheEnv c).start - R.start) c.headI.i.duration_ns) *
          c.headI.i.duration_ns =
        (k : Int) * c.headI.i.duration_ns -
          ceil_div ((cacheEnv c).start - R.start) c.headI.i.duration_ns *
            c.headI.i.duration_ns := by ring
    have hb2 : c.headI.i.duration_ns *
        (ceil_div ((cacheEnv c).start - R.start) c.headI.i.duration_ns - 1) =
        ceil_div ((cacheEnv c).start - R.start) c.headI.i.duration_ns *
          c.headI.i.duration_ns - c.headI.i.duration_ns := by ring
    have hb3 : 0 ≤ (k : Int) * c.headI.i.duration_ns :=
      mul_nonneg (Int.ofNat_nonneg k) hT.le
    have hb4 : (k : Int) * c.headI.i.duration_ns ≤
        (ceil_div ((cacheEnv c).start - R.start) c.headI.i.duration_ns - 1) *
          c.headI.i.duration_ns :=
      mul_le_mul_of_nonneg_right (by omega) hT.le
    have hb5 : (ceil_div ((cacheEnv c).start - R.start)
          c.headI.i.duration_ns - 1) * c.headI.i.duration_ns =
        ceil_div ((cacheEnv c).start - R.start) c.headI.i.duration_ns *
          c.headI.i.duration_ns - c.headI.i.duration_ns := by ring
    have hdur : c.headI.i.duration_ns = c.headI.i.stop - c.headI.i.start :=
      rfl
    rw [sub_pos]
    apply max_lt
    · apply lt_min
      · linarith
      · linarith
    · apply lt_min
      · linarith
      · omega
  · exact hx.hin t hmid
  · have hna : 0 < ceil_div (R.stop - (cacheEnv c).stop)
        c.headI.i.duration_ns := by omega
    have hTLge := hx.TL_ge hna
    refine ⟨⟨le_max_right _ _, min_le_right _ _⟩, ?_⟩
    have hkc : (k : Int) <
        ceil_div (R.stop - (cacheEnv c).stop) c.headI.i.duration_ns := by
      omega
    have hna1 := mul_pred_ceil_div_lt (R.stop - (cacheEnv c).stop)
      c.headI.i.duration_ns hT
    have hrepr : (appTile I c.getLastI.i
        c.headI.i.duration_ns k).i.duration_ns =
        min (c.getLastI.i.stop + ((k : Int) + 1) * c.headI.i.duration_ns)
          I.stop -
        max (c.getLastI.i.start + ((k : Int) + 1) * c.headI.i.duration_ns)
          I.start := rfl
    rw [hrepr]
    have hb1 : ((k : Int) + 1) * c.headI.i.duration_ns =
        (k : Int) * c.headI.i.duration_ns + c.headI.i.duration_ns := by ring
    have hb2 : c.headI.i.duration_ns *
        (ceil_div (R.stop - (cacheEnv c).stop) c.headI.i.duration_ns - 1) =
        ceil_div (R.stop - (cacheEnv c).stop) c.headI.i.duration_ns *
          c.headI.i.duration_ns - c.headI.i.duration_ns := by ring
    have hb3 : 0 ≤ (k : Int) * c.headI.i.duration_ns :=
      mul_nonneg (Int.ofNat_nonneg k) hT.le
    have hb4 : (k : Int) * c.headI.i.duration_ns ≤
        (ceil_div (R.stop - (cacheEnv c).stop) c.headI.i.duration_ns - 1) *
          c.headI.i.duration_ns :=
      mul_le_mul_of_nonneg_right (by omega) hT.le
    have hb5 : (ceil_div (R.stop - (cacheEnv c).stop)
          c.headI.i.duration_ns - 1) * c.headI.i.duration_ns =
        ceil_div (R.stop - (cacheEnv c).stop) c.headI.i.duration_ns *
          c.headI.i.duration_ns - c.headI.i.duration_ns := by ring
    have hTL := hx.hTL
    have hdurL : c.getLastI.i.duration_ns =
        c.getLastI.i.stop - c.getLastI.i.start := rfl
    have hdurH : c.headI.i.duration_ns = c.headI.i.stop - c.headI.i.start :=
      rfl
    have hIsL : I.start ≤ c.getLastI.i.start :=
      (hx.hin _ (getLastI_mem hx.hc)).1.1
    rw [sub_pos]
    apply max_lt
    · apply lt_min
      · linarith
      · linarith
    · apply lt_min
      · linarith
      · omega

end ProfViewer
namespace ProfViewer

theorem ext_ne_nil {I R : Interval} {c : List TileID} (hx : ExtCtx I R c) :
    extendTiles I c (cacheEnv c) R ≠ [] := by
  rw [hx.ext_eq]
  intro h
  rcases List.append_eq_nil.mp h with ⟨h1, _⟩
  rcases List.append_eq_nil.mp h1 with ⟨_, h2⟩
  exact hx.hc h2

theorem ext_headI {I R : Interval} {c : List TileID} (hx : ExtCtx I R c) :
    (extendTiles I c (cacheEnv c) R).headI =
      if (ceil_div ((cacheEnv c).start - R.start)
          c.headI.i.duration_ns).toNat = 0
      then c.headI
      else preTile I c.headI.i
        (ceil_div ((cacheEnv c).start - R.start) c.headI.i.duration_ns)
        c.headI.i.duration_ns 0 := by
  rw [hx.ext_eq]
  by_cases h : (ceil_div ((cacheEnv c).start - R.start)
      c.headI.i.duration_ns).toNat = 0
  · rw [if_pos h, h]
    simp only [List.range_zero, List.map_nil, List.nil_append]
    exact headI_append hx.hc
  · rw [if_neg h]
    rw [List.append_assoc]
    rw [headI_append (by
      simp only [ne_eq, List.map_eq_nil_iff, List.range_eq_nil]
      exact h)]
    exact headI_range_map (Nat.pos_of_ne_zero h) _

theorem ext_getLastI {I R : Interval} {c : List TileID} (hx : ExtCtx I R c) :
    (extendTiles I c (cacheEnv c) R).getLastI =
      if (ceil_div (R.stop - (cacheEnv c).stop)
          c.headI.i.duration_ns).toNat = 0
      then c.getLastI
      else appTile I c.getLastI.i c.headI.i.duration_ns
        ((ceil_div (R.stop - (cacheEnv c).stop)
          c.headI.i.duration_ns).toNat - 1) := by
  rw [hx.ext_eq]
  by_cases h : (ceil_div (R.stop - (cacheEnv c).stop)
      c.headI.i.duration_ns).toNat = 0
  · rw [if_pos h, h]
    simp only [List.range_zero, List.map_nil, List.append_nil]
    exact getLastI_append _ hx.hc
  · rw [if_neg h]
    rw [getLastI_append _ (by
      simp only [ne_eq, List.map_eq_nil_iff, List.range_eq_nil]
      exact h)]
    exact getLastI_range_map (Nat.pos_of_ne_zero h) _

end ProfViewer
namespace ProfViewer

/-- The head of the extended list starts no later than the old envelope. -/
theorem ext_head_le_env {I R : Interval} {c : List TileID} (hx : ExtCtx I R c) :
    (extendTiles I c (cacheEnv c) R).headI.i.start ≤ (cacheEnv c).start := by
  rw [ext_headI hx]
  by_cases h : (ceil_div ((cacheEnv c).start - R.start)
      c.headI.i.duration_ns).toNat = 0
  · rw [if_pos h, hx.hhead]
  · rw [if_neg h]
    have hT := hx.hT
    have hNB : 0 < ceil_div ((cacheEnv c).start - R.start)
        c.headI.i.duration_ns := by omega
    show max (c.headI.i.start + (((0 : ℕ) : Int) -
        ceil_div ((cacheEnv c).start - R.start) c.headI.i.duration_ns) *
        c.headI.i.duration_ns) I.start ≤ (cacheEnv c).start
    apply max_le
    · have hmul : 0 ≤ ceil_div ((cacheEnv c).start - R.start)
          c.headI.i.duration_ns * c.headI.i.duration_ns :=
        mul_nonneg (by omega) hT.le
      have hexp : (((0 : ℕ) : Int) -
          ceil_div ((cacheEnv c).start - R.start) c.headI.i.duration_ns) *
          c.headI.i.duration_ns =
          -(ceil_div ((cacheEnv c).start - R.start) c.headI.i.duration_ns *
            c.headI.i.duration_ns) := by
        push_cast
        ring
      rw [hexp]
      have := hx.hhead
      omega
    · exact hx.envI1

/-- The head of the extended list is its earliest-starting tile. -/
theorem ext_start_min {I R : Interval} {c : List TileID} (hx : ExtCtx I R c) :
    ∀ t ∈ extendTiles I c (cacheEnv c) R,
      (extendTiles I c (cacheEnv c) R).headI.i.start ≤ t.i.start := by
  have hT := hx.hT
  have hle := ext_head_le_env hx
  intro t ht
  rw [hx.ext_eq] at ht
  simp only [List.mem_append, List.mem_map, List.mem_range] at ht
  rcases ht with (⟨k, hk, rfl⟩ | hmid) | ⟨k, hk, rfl⟩
  · -- a prepended tile: compare with the head, which is the k = 0 tile
    rw [ext_headI hx, if_neg (by omega)]
    show max (c.headI.i.start + (((0 : ℕ) : Int) -
        ceil_div ((cacheEnv c).start - R.start) c.headI.i.duration_ns) *
        c.headI.i.duration_ns) I.start ≤
      max (c.headI.i.start + (((k : ℕ) : Int) -
        ceil_div ((cacheEnv c).start - R.start) c.headI.i.duration_ns) *
        c.headI.i.duration_ns) I.start
    apply max_le_max _ le_rfl
    apply add_le_add_left
    apply mul_le_mul_of_nonneg_right _ hT.le
    push_cast
    omega
  · calc (extendTiles I c (cacheEnv c) R).headI.i.start
        ≤ (cacheEnv c).start := hle
      _ ≤ t.i.start := (cacheEnv_bounds hx.hc t hmid).1
  · -- an appended tile starts at or after the old last tile's start
    have h1 : (cacheEnv c).start ≤ c.getLastI.i.start := hx.env_le_last_start
    have h2 : 0 ≤ ((k : Int) + 1) * c.headI.i.duration_ns :=
      mul_nonneg (by positivity) hT.le
    calc (extendTiles I c (cacheEnv c) R).headI.i.start
        ≤ (cacheEnv c).start := hle
      _ ≤ c.getLastI.i.start + ((k : Int) + 1) * c.headI.i.duration_ns := by
          omega
      _ ≤ max (c.getLastI.i.start + ((k : Int) + 1) * c.headI.i.duration_ns)
            I.start := le_max_left _ _

/-- The last tile of the extended list stops no earlier than the old
envelope. -/
theorem ext_env_le_last {I R : Interval} {c : List TileID} (hx : ExtCtx I R c) :
    (cacheEnv c).stop ≤ (extendTiles I c (cacheEnv c) R).getLastI.i.stop := by
  rw [ext_getLastI hx]
  by_cases h : (ceil_div (R.stop - (cacheEnv c).stop)
      c.headI.i.duration_ns).toNat = 0
  · rw [if_pos h, hx.hlast]
  · rw [if_neg h]
    have hT := hx.hT
    show (cacheEnv c).stop ≤
      min (c.getLastI.i.stop + ((((ceil_div (R.stop - (cacheEnv c).stop)
          c.headI.i.duration_ns).toNat - 1 : ℕ) : Int) + 1) *
        c.headI.i.duration_ns) I.stop
    apply le_min
    · have hmul : 0 ≤ ((((ceil_div (R.stop - (cacheEnv c).stop)
          c.headI.i.duration_ns).toNat - 1 : ℕ) : Int) + 1) *
          c.headI.i.duration_ns :=
        mul_nonneg (by positivity) hT.le
      have := hx.hlast
      omega
    · exact hx.envI2

/-- The last tile of the extended list is its latest-stopping tile. -/
theorem ext_stop_max {I R : Interval} {c : List TileID} (hx : ExtCtx I R c) :
    ∀ t ∈ extendTiles I c (cacheEnv c) R,
      t.i.stop ≤ (extendTiles I c (cacheEnv c) R).getLastI.i.stop := by
  have hT := hx.hT
  have hle := ext_env_le_last hx
  intro t ht
  rw [hx.ext_eq] at ht
  simp only [List.mem_append, List.mem_map, List.mem_range] at ht
  rcases ht with (⟨k, hk, rfl⟩ | hmid) | ⟨k, hk, rfl⟩
  · -- a prepended tile stops at or before the envelope start
    have hkc : (k : Int) < ceil_div ((cacheEnv c).start - R.start)
        c.headI.i.duration_ns := by omega
    have hstop := hx.head_stop
    have hmul : ((k : Int) - ceil_div ((cacheEnv c).start - R.start)
        c.headI.i.duration_ns) * c.headI.i.duration_ns ≤
        (-1) * c.headI.i.duration_ns :=
      mul_le_mul_of_nonneg_right (by omega) hT.le
    calc (preTile I c.headI.i
          (ceil_div ((cacheEnv c).start - R.start) c.headI.i.duration_ns)
          c.headI.i.duration_ns k).i.stop
        ≤ c.headI.i.stop + ((k : Int) -
            ceil_div ((cacheEnv c).start - R.start) c.headI.i.duration_ns) *
            c.headI.i.duration_ns := min_le_left _ _
      _ ≤ (cacheEnv c).stop := by
          have := hx.envlt
          omega
      _ ≤ _ := hle
  · calc t.i.stop ≤ (cacheEnv c).stop := (cacheEnv_bounds hx.hc t hmid).2
      _ ≤ _ := hle
  · -- an appended tile: compare with the final appended tile
    have hNA : (ceil_div (R.stop - (cacheEnv c).stop)
        c.headI.i.duration_ns).toNat ≠ 0 := by omega
    rw [ext_getLastI hx, if_neg hNA]
    show min (c.getLastI.i.stop + ((k : Int) + 1) * c.headI.i.duration_ns)
        I.stop ≤
      min (c.getLastI.i.stop + ((((ceil_div (R.stop - (cacheEnv c).stop)
          c.headI.i.duration_ns).toNat - 1 : ℕ) : Int) + 1) *
        c.headI.i.duration_ns) I.stop
    apply min_le_min _ le_rfl
    apply add_le_add_left
    apply mul_le_mul_of_nonneg_right _ hT.le
    omega

end ProfViewer
namespace ProfViewer

/-- The extended list covers its own envelope. -/
theorem ext_covers_env {I R : Interval} {c : List TileID} (hx : ExtCtx I R c) :
    Covers (extendTiles I c (cacheEnv c) R)
      (cacheEnv (extendTiles I c (cacheEnv c) R)) := by
  have hT := hx.hT
  have hne := ext_ne_nil hx
  have hstart := cacheEnv_start_eq_headI hne (ext_start_min hx)
  have hstop := cacheEnv_stop_eq_getLastI hne (ext_stop_max hx)
  intro x h1 h2
  rw [hstart] at h1
  rw [hstop] at h2
  by_cases hxlt : x < (cacheEnv c).start
  · -- left of the old envelope: some prepended tile covers it
    have hNB : (ceil_div ((cacheEnv c).start - R.start)
        c.headI.i.duration_ns).toNat ≠ 0 := by
      intro h0
      rw [ext_headI hx, if_pos h0, hx.hhead] at h1
      omega
    rw [ext_headI hx, if_neg hNB] at h1
    have h1max : max (c.headI.i.start + (((0 : ℕ) : Int) -
        ceil_div ((cacheEnv c).start - R.start) c.headI.i.duration_ns) *
        c.headI.i.duration_ns) I.start ≤ x := h1
    have hIx : I.start ≤ x := le_trans (le_max_right _ _) h1max
    have hlox : c.headI.i.start + (((0 : ℕ) : Int) -
        ceil_div ((cacheEnv c).start - R.start) c.headI.i.duration_ns) *
        c.headI.i.duration_ns ≤ x := le_trans (le_max_left _ _) h1max
    rw [hx.ext_eq]
    apply CoversPt.append_left
    apply CoversPt.append_left
    apply pre_coversPt _ _ _ _ hT
      (by
        have := hx.head_stop
        have := hx.hhead
        omega)
      (by
        have := hx.hhead
        have := hx.envlt
        have := hx.envI2
        omega)
      _ hIx _ (by
        have := hx.hhead
        omega)
    have hexp : (((0 : ℕ) : Int) -
        ceil_div ((cacheEnv c).start - R.start) c.headI.i.duration_ns) *
        c.headI.i.duration_ns =
        -(c.headI.i.duration_ns *
          ceil_div ((cacheEnv c).start - R.start) c.headI.i.duration_ns) := by
      push_cast
      ring
    rw [hexp] at hlox
    omega
  · by_cases hxlt2 : x < (cacheEnv c).stop
    · rw [hx.ext_eq]
      apply CoversPt.append_left
      apply CoversPt.append_right
      exact hx.hcov x (by omega) hxlt2
    · -- right of the old envelope: some appended tile covers it
      have hNA : (ceil_div (R.stop - (cacheEnv c).stop)
          c.headI.i.duration_ns).toNat ≠ 0 := by
        intro h0
        rw [ext_getLastI hx, if_pos h0, hx.hlast] at h2
        omega
      rw [ext_getLastI hx, if_neg hNA] at h2
      have hcast : ((((ceil_div (R.stop - (cacheEnv c).stop)
          c.headI.i.duration_ns).toNat - 1 : ℕ) : Int) + 1) =
          ceil_div (R.stop - (cacheEnv c).stop) c.headI.i.duration_ns := by
        omega
      have h2b : x < min (c.getLastI.i.stop +
          ((((ceil_div (R.stop - (cacheEnv c).stop)
            c.headI.i.duration_ns).toNat - 1 : ℕ) : Int) + 1) *
            c.headI.i.duration_ns) I.stop := h2
      rw [hcast] at h2b
      have hx1 : x < c.getLastI.i.stop +
          ceil_div (R.stop - (cacheEnv c).stop) c.headI.i.duration_ns *
            c.headI.i.duration_ns := lt_of_lt_of_le h2b (min_le_left _ _)
      have hx2 : x < I.stop := lt_of_lt_of_le h2b (min_le_right _ _)
      have hNApos : 0 < ceil_div (R.stop - (cacheEnv c).stop)
          c.headI.i.duration_ns := by omega
      have hTLge := hx.TL_ge hNApos
      rw [hx.ext_eq]
      apply CoversPt.append_right
      apply app_coversPt _ _ _ _ hT
        (by
          simp only [Interval.duration_ns] at hTLge ⊢
          omega)
        ((hx.hin _ (getLastI_mem hx.hc)).1.1)
      · have := hx.hlast
        omega
      · have hcomm : c.headI.i.duration_ns *
            ceil_div (R.stop - (cacheEnv c).stop) c.headI.i.duration_ns =
            ceil_div (R.stop - (cacheEnv c).stop) c.headI.i.duration_ns *
              c.headI.i.duration_ns := mul_comm _ _
        omega
      · exact hx2

/-- A last extended tile strictly shorter than the first one can only be
truncated at the row's right edge. -/
theorem ext_g {I R : Interval} {c : List TileID} (hx : ExtCtx I R c) :
    (extendTiles I c (cacheEnv c) R).getLastI.i.duration_ns <
      (extendTiles I c (cacheEnv c) R).headI.i.duration_ns →
    (extendTiles I c (cacheEnv c) R).getLastI.i.stop = I.stop := by
  intro hlt
  have hT := hx.hT
  have hheadd : (extendTiles I c (cacheEnv c) R).headI.i.duration_ns ≤
      c.headI.i.duration_ns := by
    rw [ext_headI hx]
    by_cases h : (ceil_div ((cacheEnv c).start - R.start)
        c.headI.i.duration_ns).toNat = 0
    · rw [if_pos h]
    · rw [if_neg h]
      show min (c.headI.i.stop + (((0 : ℕ) : Int) -
          ceil_div ((cacheEnv c).start - R.start) c.headI.i.duration_ns) *
          c.headI.i.duration_ns) I.stop -
        max (c.headI.i.start + (((0 : ℕ) : Int) -
          ceil_div ((cacheEnv c).start - R.start) c.headI.i.duration_ns) *
          c.headI.i.duration_ns) I.start ≤ c.headI.i.duration_ns
      have hd : c.headI.i.duration_ns = c.headI.i.stop - c.headI.i.start :=
        rfl
      have hmin := min_le_left (c.headI.i.stop + (((0 : ℕ) : Int) -
          ceil_div ((cacheEnv c).start - R.start) c.headI.i.duration_ns) *
          c.headI.i.duration_ns) I.stop
      have hmax := le_max_left (c.headI.i.start + (((0 : ℕ) : Int) -
          ceil_div ((cacheEnv c).start - R.start) c.headI.i.duration_ns) *
          c.headI.i.duration_ns) I.start
      omega
  by_cases hNA : (ceil_div (R.stop - (cacheEnv c).stop)
      c.headI.i.duration_ns).toNat = 0
  · rw [ext_getLastI hx, if_pos hNA] at hlt ⊢
    exact hx.hg (by omega)
  · have hNApos : 0 < ceil_div (R.stop - (cacheEnv c).stop)
        c.headI.i.duration_ns := by omega
    have hTLge := hx.TL_ge hNApos
    rw [ext_getLastI hx, if_neg hNA] at hlt ⊢
    have hcast : ((((ceil_div (R.stop - (cacheEnv c).stop)
        c.headI.i.duration_ns).toNat - 1 : ℕ) : Int) + 1) =
        ceil_div (R.stop - (cacheEnv c).stop) c.headI.i.duration_ns := by
      omega
    show min (c.getLastI.i.stop + ((((ceil_div (R.stop - (cacheEnv c).stop)
        c.headI.i.duration_ns).toNat - 1 : ℕ) : Int) + 1) *
        c.headI.i.duration_ns) I.stop = I.stop
    by_cases hclip : I.stop ≤ c.getLastI.i.stop +
        ((((ceil_div (R.stop - (cacheEnv c).stop)
          c.headI.i.duration_ns).toNat - 1 : ℕ) : Int) + 1) *
          c.headI.i.duration_ns
    · exact min_eq_right hclip
    · exfalso
      push_neg at hclip
      have hdlast : (appTile I c.getLastI.i c.headI.i.duration_ns
          ((ceil_div (R.stop - (cacheEnv c).stop)
            c.headI.i.duration_ns).toNat - 1)).i.duration_ns =
          min (c.getLastI.i.stop + ((((ceil_div (R.stop - (cacheEnv c).stop)
            c.headI.i.duration_ns).toNat - 1 : ℕ) : Int) + 1) *
            c.headI.i.duration_ns) I.stop -
          max (c.getLastI.i.start + ((((ceil_div (R.stop - (cacheEnv c).stop)
            c.headI.i.duration_ns).toNat - 1 : ℕ) : Int) + 1) *
            c.headI.i.duration_ns) I.start := rfl
      rw [hdlast] at hlt
      have hmineq : min (c.getLastI.i.stop +
          ((((ceil_div (R.stop - (cacheEnv c).stop)
            c.headI.i.duration_ns).toNat - 1 : ℕ) : Int) + 1) *
            c.headI.i.duration_ns) I.stop =
          c.getLastI.i.stop + ((((ceil_div (R.stop - (cacheEnv c).stop)
            c.headI.i.duration_ns).toNat - 1 : ℕ) : Int) + 1) *
            c.headI.i.duration_ns := min_eq_left hclip.le
      have hmaxeq : max (c.getLastI.i.start +
          ((((ceil_div (R.stop - (cacheEnv c).stop)
            c.headI.i.duration_ns).toNat - 1 : ℕ) : Int) + 1) *
            c.headI.i.duration_ns) I.start =
          c.getLastI.i.start + ((((ceil_div (R.stop - (cacheEnv c).stop)
            c.headI.i.duration_ns).toNat - 1 : ℕ) : Int) + 1) *
            c.headI.i.duration_ns := by
        apply max_eq_left
        have hs : I.start ≤ c.getLastI.i.start :=
          (hx.hin _ (getLastI_mem hx.hc)).1.1
        have hmul : 0 ≤ ((((ceil_div (R.stop - (cacheEnv c).stop)
            c.headI.i.duration_ns).toNat - 1 : ℕ) : Int) + 1) *
            c.headI.i.duration_ns := mul_nonneg (by positivity) hT.le
        omega
      rw [hmineq, hmaxeq] at hlt
      have hdurL : c.getLastI.i.duration_ns =
          c.getLastI.i.stop - c.getLastI.i.start := rfl
      omega

/-- The extension arm: the result covers the request and is again a
well-formed dynamic cache. -/
theorem extendTiles_good {I R : Interval} {c : List TileID}
    (hx : ExtCtx I R c) :
    Covers (extendTiles I c (cacheEnv c) R) R ∧
    DynCacheOK I (extendTiles I c (cacheEnv c) R) := by
  have hne := ext_ne_nil hx
  refine ⟨ext_covers_R hx, Or.inr ⟨ext_mem_spec hx, ?_, ?_, ext_covers_env hx,
    ext_g hx⟩⟩
  · exact (cacheEnv_start_eq_headI hne (ext_start_min hx)).symm
  · exact (cacheEnv_stop_eq_getLastI hne (ext_stop_max hx)).symm

end ProfViewer
namespace ProfViewer

theorem envelopeFold_eq_none {c : List TileID} (h : envelopeFold c = none) :
    c = [] := by
  cases c with
  | nil => rfl
  | cons a t => exact Option.noConfusion h

/-- A freshly tiled single-request cache is well-formed. -/
theorem dynCacheOK_singleton (I r : Interval) (h1 : I.start ≤ r.start)
    (h2 : r.stop ≤ I.stop) (h3 : 0 < r.duration_ns) :
    DynCacheOK I [TileID.mk r] := by
  right
  have henv : cacheEnv [TileID.mk r] = r := rfl
  refine ⟨?_, ?_, ?_, ?_, ?_⟩
  · intro t ht
    rw [List.mem_singleton] at ht
    subst ht
    exact ⟨⟨h1, h2⟩, h3⟩
  · rw [henv]
    rfl
  · rw [henv]
    rfl
  · intro x ha hb
    rw [henv] at ha hb
    exact ⟨TileID.mk r, List.mem_singleton_self _, ha, hb⟩
  · intro hlt
    exact absurd hlt (lt_irrefl _)

theorem covers_singleton (r : Interval) : Covers [TileID.mk r] r :=
  fun x ha hb => ⟨TileID.mk r, List.mem_singleton_self _, ha, hb⟩

/-- One `request_tiles` call preserves the state invariant. -/
theorem TMInv_preserved (ts : TileSet) (I : Interval) (tm : TileManager)
    (hgood : ts.tiles = [] ∨ ∀ lvl ∈ ts.tiles, LevelCovers I lvl)
    (hinv : TMInv ts I tm) (v : Interval) (f : Bool) :
    TMInv ts I (tm.request_tiles v f).2 := by
  obtain ⟨hts, hI, hslots⟩ := hinv
  obtain ⟨pts, pint, plri, pcache, pother⟩ := request_tiles_post tm v f
  refine ⟨pts.trans hts, pint.trans hI, fun g => ?_⟩
  by_cases hg : g = f
  swap
  · rw [(pother g hg).1, (pother g hg).2]
    exact hslots g
  subst hg
  rw [plri, pcache]
  have hRs : I.start ≤ (v.intersection tm.interval).start := by
    rw [← hI]
    exact le_max_right v.start tm.interval.start
  have hRe : (v.intersection tm.interval).stop ≤ I.stop := by
    rw [← hI]
    exact min_le_right v.stop tm.interval.stop
  by_cases h1 : tm.slotLri g = some (v.intersection tm.interval)
  · rw [request_tiles_eq_memo tm v g h1]
    refine ⟨(hslots g).1, fun R2 hR2 hd2 => ?_⟩
    injection hR2 with hR2
    subst hR2
    exact (hslots g).2 _ h1 hd2
  by_cases h2 : (v.intersection tm.interval).duration_ns ≤ 0
  · rw [request_tiles_eq_empty tm v g h1 h2, fill_fst]
    refine ⟨fun _ => Or.inl rfl, fun R2 hR2 hd2 => ?_⟩
    injection hR2 with hR2
    subst hR2
    omega
  cases h3 : tm.tile_set.tiles.isEmpty with
  | false =>
    rw [request_tiles_eq_static tm v g h1 h2 h3, fill_fst]
    constructor
    · intro hdyn
      rw [hts] at h3
      rw [h3] at hdyn
      exact Bool.noConfusion hdyn
    · intro R2 hR2 hd2
      injection hR2 with hR2
      subst hR2
      have hne : tm.tile_set.tiles ≠ [] := by
        intro hnil
        rw [hnil] at h3
        simp at h3
      have hlvlmem : (if g then tm.tile_set.tiles.getLastI
          else minByRatio (v.intersection tm.interval).duration_ns
            tm.tile_set.tiles) ∈ tm.tile_set.tiles := by
        cases g with
        | true => exact getLastI_mem hne
        | false => exact isFirstMin_mem (minByRatio_spec _ _ hne)
      have hcovlvl : LevelCovers I (if g then tm.tile_set.tiles.getLastI
          else minByRatio (v.intersection tm.interval).duration_ns
            tm.tile_set.tiles) := by
        rcases hgood with hnil | hcovs
        · rw [hts, hnil] at h3
          simp at h3
        · exact hcovs _ (hts ▸ hlvlmem)
      intro x ha hb
      obtain ⟨t, htl, ht1, ht2⟩ := hcovlvl x (by omega) (by omega)
      refine ⟨t, List.mem_filter.mpr ⟨htl, ?_⟩, ht1, ht2⟩
      simp only [decide_eq_true_eq]
      exact ⟨by omega, by omega⟩
  | true =>
    cases h4 : envelopeFold (tm.slotCache g) with
    | none =>
      rw [request_tiles_eq_fresh_none tm v g h1 h2 h3 h4, fill_fst]
      refine ⟨fun _ => dynCacheOK_singleton I _ hRs hRe (by omega),
        fun R2 hR2 hd2 => ?_⟩
      injection hR2 with hR2
      subst hR2
      exact covers_singleton _
    | some E =>
      have hcne : tm.slotCache g ≠ [] := envelopeFold_ne_nil h4
      have hEc : cacheEnv (tm.slotCache g) = E.i := cacheEnv_of_envelopeFold h4
      by_cases h5 : ratio_q (v.intersection tm.interval).duration_ns
          (tm.slotCache g) ≤ 2
      · by_cases h6 : E.i.contains_interval (v.intersection tm.interval)
        · rw [request_tiles_eq_reuse tm v g E h1 h2 h3 h4 h5 h6, fill_fst]
          refine ⟨(hslots g).1, fun R2 hR2 hd2 => ?_⟩
          injection hR2 with hR2
          subst hR2
          have hdok := ((hslots g).1 (hts ▸ h3)).resolve_left hcne
          obtain ⟨_, _, _, hcov, _⟩ := hdok
          intro x ha hb
          rw [hEc] at hcov
          exact hcov x (by
            have := h6.1
            omega) (by
            have := h6.2
            omega)
        · by_cases h7 : E.i.overlaps (v.intersection tm.interval)
          · rw [request_tiles_eq_extend tm v g E h1 h2 h3 h4 h5 h6 h7,
              fill_fst]
            have hdok := ((hslots g).1 (hts ▸ h3)).resolve_left hcne
            obtain ⟨hin, hhead, hlast, hcov, hgp⟩ := hdok
            have hx : ExtCtx I (v.intersection tm.interval)
                (tm.slotCache g) := by
              refine ⟨hcne, hin, hhead, hlast, hcov, hgp, hRs, hRe,
                by omega, ?_⟩
              rw [hEc]
              exact h7
            have hrw : extendTiles tm.interval (tm.slotCache g) E.i
                (v.intersection tm.interval) =
                extendTiles I (tm.slotCache g)
                  (cacheEnv (tm.slotCache g)) (v.intersection tm.interval) := by
              rw [hI, hEc]
            rw [hrw]
            obtain ⟨hc1, hc2⟩ := extendTiles_good hx
            refine ⟨fun _ => hc2, fun R2 hR2 hd2 => ?_⟩
            injection hR2 with hR2
            subst hR2
            exact hc1
          · rw [request_tiles_eq_fresh_noov tm v g E h1 h2 h3 h4 h5 h6 h7,
              fill_fst]
            refine ⟨fun _ => dynCacheOK_singleton I _ hRs hRe (by omega),
              fun R2 hR2 hd2 => ?_⟩
            injection hR2 with hR2
            subst hR2
            exact covers_singleton _
      · rw [request_tiles_eq_fresh_ratio tm v g E h1 h2 h3 h4 h5, fill_fst]
        refine ⟨fun _ => dynCacheOK_singleton I _ hRs hRe (by omega),
          fun R2 hR2 hd2 => ?_⟩
        injection hR2 with hR2
        subst hR2
        exact covers_singleton _

/-- The state invariant holds in every reachable state. -/
theorem TMInv_reachable (ts : TileSet) (I : Interval) (tm : TileManager)
    (hgood : ts.tiles = [] ∨ ∀ lvl ∈ ts.tiles, LevelCovers I lvl)
    (hre : Reachable ts I tm) : TMInv ts I tm := by
  induction hre with
  | init =>
    refine ⟨rfl, rfl, fun f => ⟨fun _ => Or.inl ?_, fun R2 hR2 _ => ?_⟩⟩
    · cases f <;> rfl
    · cases f <;> exact Option.noConfusion hR2
  | step tm v f hre ih => exact TMInv_preserved ts I tm hgood ih v f

/-- C5: for every call whose request interval `R = view ∩ self.interval`
has positive duration, the union of the returned tiles' intervals covers
`R` — in dynamic mode unconditionally, and in static mode under the data
model's precondition that each level of the tile set is sorted,
non-overlapping, and jointly covers the row's full interval. -/
theorem request_tiles_covers (ts : TileSet) (I : Interval) (tm : TileManager)
    (v : Interval) (f : Bool)
    (hgood : ts.tiles = [] ∨ ∀ lvl ∈ ts.tiles,
      LevelSorted lvl ∧ LevelDisjoint lvl ∧ LevelCovers I lvl)
    (hre : Reachable ts I tm)
    (hdur : 0 < (v.intersection tm.interval).duration_ns) :
    Covers (tm.request_tiles v f).1 (v.intersection tm.interval) := by
  have hgood2 : ts.tiles = [] ∨ ∀ lvl ∈ ts.tiles, LevelCovers I lvl := by
    rcases hgood with h | h
    · exact Or.inl h
    · exact Or.inr fun lvl hm => (h lvl hm).2.2
  have hinv := TMInv_reachable ts I ((tm.request_tiles v f).2) hgood2
    (Reachable.step tm v f hre)
  obtain ⟨_, _, hslots⟩ := hinv
  obtain ⟨pts, pint, plri, pcache, _⟩ := request_tiles_post tm v f
  have hcov := (hslots f).2 (v.intersection tm.interval) plri hdur
  rw [pcache] at hcov
  exact hcov

theorem request_tiles_covers_witness :
    ((⟨[]⟩ : TileSet).tiles = [] ∨ ∀ lvl ∈ (⟨[]⟩ : TileSet).tiles,
      LevelSorted lvl ∧ LevelDisjoint lvl ∧ LevelCovers ⟨0, 10⟩ lvl) ∧
    Reachable ⟨[]⟩ ⟨0, 10⟩ (TileManager.new ⟨[]⟩ ⟨0, 10⟩) ∧
    0 < ((⟨2, 8⟩ : Interval).intersection
      (TileManager.new ⟨[]⟩ ⟨0, 10⟩).interval).duration_ns ∧
    Covers ((TileManager.new ⟨[]⟩ ⟨0, 10⟩).request_tiles ⟨2, 8⟩ false).1
      ((⟨2, 8⟩ : Interval).intersection
        (TileManager.new ⟨[]⟩ ⟨0, 10⟩).interval) :=
  ⟨Or.inl rfl, Reachable.init, by decide,
    request_tiles_covers ⟨[]⟩ ⟨0, 10⟩ (TileManager.new ⟨[]⟩ ⟨0, 10⟩) ⟨2, 8⟩
      false (Or.inl rfl) Reachable.init (by decide)⟩

end ProfViewer
namespace ProfViewer

/-! # Counting wrapper accounting (`CountingDeferredDataSource`) -/

theorem drainSum_cons_fetch (t : List CountEvent) :
    drainSum (CountEvent.fetch :: t) = drainSum t := by
  simp [drainSum]

theorem drainSum_cons_drain (n : ℕ) (t : List CountEvent) :
    drainSum (CountEvent.drain n :: t) = n + drainSum t := by
  simp [drainSum]

theorem fetchCount_cons_fetch (t : List CountEvent) :
    fetchCount (CountEvent.fetch :: t) = fetchCount t + 1 := by
  simp [fetchCount]

theorem fetchCount_cons_drain (n : ℕ) (t : List CountEvent) :
    fetchCount (CountEvent.drain n :: t) = fetchCount t := by
  simp [fetchCount]

theorem runCounting_append (c0 : ℕ) (xs ys : List CountEvent) :
    runCounting c0 (xs ++ ys) =
      (runCounting c0 xs).bind fun c1 => runCounting c1 ys := by
  induction xs generalizing c0 with
  | nil => rfl
  | cons e t ih =>
    cases e with
    | fetch => exact ih (start_request c0)
    | drain n =>
      show (match finish_request c0 n with
        | some c2 => runCounting c2 (t ++ ys)
        | none => none) = _
      cases hf : finish_request c0 n with
      | none => simp [runCounting, hf]
      | some c2 => simp [runCounting, hf, ih c2]

theorem runCounting_sum (evs : List CountEvent) (c0 c : ℕ)
    (h : runCounting c0 evs = some c) :
    c + drainSum evs = c0 + fetchCount evs := by
  induction evs generalizing c0 with
  | nil =>
    injection h with h
    subst h
    simp [drainSum, fetchCount]
  | cons e t ih =>
    cases e with
    | fetch =>
      have h3 := ih (start_request c0) h
      rw [drainSum_cons_fetch, fetchCount_cons_fetch]
      unfold start_request at h3
      omega
    | drain n =>
      rw [drainSum_cons_drain, fetchCount_cons_drain]
      have h2 : (match finish_request c0 n with
        | some c2 => runCounting c2 t
        | none => none) = some c := h
      by_cases hn : n ≤ c0
      · rw [finish_request, if_pos hn] at h2
        have h3 := ih (c0 - n) h2
        omega
      · rw [finish_request, if_neg hn] at h2
        exact Option.noConfusion h2

/-- C7: for every event sequence against `CountingDeferredDataSource`
(a `fetch_*` call, or a `get_*` call draining `n` responses): whenever the
run completes, the final `outstanding_requests` counter equals the number
of fetches minus the total responses drained — it is incremented by one
per fetch and decremented by the drained length per get, and every drain
fits under the counter (it never goes negative); while a drain exceeding
the outstanding count aborts the run on the assertion. -/
theorem counting_outstanding (evs : List CountEvent) :
    (∀ c, runCounting 0 evs = some c →
      (c + drainSum evs = fetchCount evs ∧
        ∀ pre n post c1, evs = pre ++ CountEvent.drain n :: post →
          runCounting 0 pre = some c1 → n ≤ c1)) ∧
    (∀ pre n post c1, evs = pre ++ CountEvent.drain n :: post →
      runCounting 0 pre = some c1 → c1 < n → runCounting 0 evs = none) := by
  constructor
  · intro c h
    refine ⟨by simpa using runCounting_sum evs 0 c h, ?_⟩
    intro pre n post c1 hsplit hpre
    by_contra hn
    rw [hsplit, runCounting_append, hpre] at h
    have h2 : (match finish_request c1 n with
      | some c2 => runCounting c2 post
      | none => none) = some c := h
    rw [finish_request, if_neg hn] at h2
    exact Option.noConfusion h2
  · intro pre n post c1 hsplit hpre hlt
    rw [hsplit, runCounting_append, hpre]
    show runCounting c1 (CountEvent.drain n :: post) = none
    show (match finish_request c1 n with
      | some c2 => runCounting c2 post
      | none => none) = none
    rw [finish_request, if_neg (by omega)]

theorem counting_outstanding_witness :
    0 + drainSum [CountEvent.fetch, CountEvent.fetch, CountEvent.drain 1,
        CountEvent.fetch, CountEvent.drain 2] =
      fetchCount [CountEvent.fetch, CountEvent.fetch, CountEvent.drain 1,
        CountEvent.fetch, CountEvent.drain 2] :=
  (((counting_outstanding [CountEvent.fetch, CountEvent.fetch,
      CountEvent.drain 1, CountEvent.fetch, CountEvent.drain 2]).1 0
    (by decide)).1)

/-! # The synchronous adapter never queues an error (`DeferredDataSourceWrapper`) -/

theorem okQueues_new (ds : DataSource) :
    OkQueues (DeferredDataSourceWrapper.new ds) := by
  refine ⟨?_, ?_, ?_⟩ <;> intro p hp <;> exact absurd hp (List.not_mem_nil p)

theorem okQueues_apply (w : DeferredDataSourceWrapper) (op : WrapperOp)
    (h : OkQueues w) : OkQueues (applyWrapperOp w op) := by
  obtain ⟨h1, h2, h3⟩ := h
  cases op with
  | fetchInfo => exact ⟨h1, h2, h3⟩
  | getInfos => exact ⟨h1, h2, h3⟩
  | fetchSummary e t f =>
    refine ⟨?_, h2, h3⟩
    intro p hp
    have hp2 : p ∈ w.summary_tiles ++
        [(Except.ok (w.data_source.fetch_summary_tile e t f),
          (⟨e, t, f⟩ : TileRequest))] := hp
    rcases List.mem_append.mp hp2 with hl | hr
    · exact h1 p hl
    · rw [List.mem_singleton] at hr
      subst hr
      exact ⟨_, rfl⟩
  | getSummaries =>
    refine ⟨?_, h2, h3⟩
    intro p hp
    exact absurd hp (List.not_mem_nil p)
  | fetchSlot e t f =>
    refine ⟨h1, ?_, h3⟩
    intro p hp
    have hp2 : p ∈ w.slot_tiles ++
        [(Except.ok (w.data_source.fetch_slot_tile e t f),
          (⟨e, t, f⟩ : TileRequest))] := hp
    rcases List.mem_append.mp hp2 with hl | hr
    · exact h2 p hl
    · rw [List.mem_singleton] at hr
      subst hr
      exact ⟨_, rfl⟩
  | getSlots =>
    refine ⟨h1, ?_, h3⟩
    intro p hp
    exact absurd hp (List.not_mem_nil p)
  | fetchSlotMeta e t f =>
    refine ⟨h1, h2, ?_⟩
    intro p hp
    have hp2 : p ∈ w.slot_meta_tiles ++
        [(Except.ok (w.data_source.fetch_slot_meta_tile e t f),
          (⟨e, t, f⟩ : TileRequest))] := hp
    rcases List.mem_append.mp hp2 with hl | hr
    · exact h3 p hl
    · rw [List.mem_singleton] at hr
      subst hr
      exact ⟨_, rfl⟩
  | getSlotMetas =>
    refine ⟨h1, h2, ?_⟩
    intro p hp
    exact absurd hp (List.not_mem_nil p)

theorem okQueues_run (ds : DataSource) (ops : List WrapperOp) :
    OkQueues (runWrapperOps (DeferredDataSourceWrapper.new ds) ops) := by
  suffices hgen : ∀ w, OkQueues w → OkQueues (runWrapperOps w ops) from
    hgen _ (okQueues_new ds)
  induction ops with
  | nil => exact fun w h => h
  | cons op rest ih => exact fun w h => ih _ (okQueues_apply w op h)

/-- C10: however the synchronous adapter is driven, every element returned
by `get_summary_tiles`, `get_slot_tiles`, or `get_slot_meta_tiles` carries
an `Ok` payload: the per-request error branch of the response type is
unreachable through `DeferredDataSourceWrapper`. -/
theorem wrapper_no_err (ds : DataSource) (ops : List WrapperOp) :
    (∀ p ∈ ((runWrapperOps (DeferredDataSourceWrapper.new ds)
        ops).get_summary_tiles).1, ∃ t, p.1 = Except.ok t) ∧
    (∀ p ∈ ((runWrapperOps (DeferredDataSourceWrapper.new ds)
        ops).get_slot_tiles).1, ∃ t, p.1 = Except.ok t) ∧
    (∀ p ∈ ((runWrapperOps (DeferredDataSourceWrapper.new ds)
        ops).get_slot_meta_tiles).1, ∃ t, p.1 = Except.ok t) :=
  okQueues_run ds ops

theorem wrapper_no_err_witness :
    ∃ t, Prod.fst ((Except.ok (⟨[0], []⟩ : SlotTile) : Except String SlotTile),
        (⟨[0], TileID.mk ⟨0, 1⟩, true⟩ : TileRequest)) =
      (Except.ok t : Except String SlotTile) :=
  (wrapper_no_err dsFixture
      [WrapperOp.fetchSlot [0] (TileID.mk ⟨0, 1⟩) true]).2.1
    ((Except.ok (⟨[0], []⟩ : SlotTile) : Except String SlotTile),
      ⟨[0], TileID.mk ⟨0, 1⟩, true⟩)
    (List.mem_singleton_self _)

end ProfViewer
namespace ProfViewer

/-! # Exporter timestamp arithmetic (`write_matched_tile`) -/

theorem event_time_some (ts z : Int) (a : ℕ) (h : event_time ts z = some a) :
    0 ≤ z ∧ a = u64_of_i64 ts + z.toNat ∧ a < 2 ^ 64 := by
  by_cases hz : 0 ≤ z
  · have h2 : u64_checked_add (u64_of_i64 ts) z.toNat = some a := by
      have : event_time ts z = u64_checked_add (u64_of_i64 ts) z.toNat := by
        rw [event_time, u64_try_from_i64, if_pos hz]
      rw [← this]
      exact h
    unfold u64_checked_add at h2
    split at h2
    · injection h2 with h2
      exact ⟨hz, h2.symm, h2 ▸ (by omega)⟩
    · exact absurd h2 (by simp)
  · have h2 : event_time ts z = none := by
      rw [event_time, u64_try_from_i64, if_neg hz]
    rw [h2] at h
    exact Option.noConfusion h

theorem event_time_none (ts z : Int)
    (h : z < 0 ∨ 2 ^ 64 ≤ u64_of_i64 ts + z.toNat) : event_time ts z = none := by
  rcases h with hz | hov
  · rw [event_time, u64_try_from_i64, if_neg (by omega)]
  · by_cases hz : 0 ≤ z
    · have hstep : event_time ts z = u64_checked_add (u64_of_i64 ts) z.toNat := by
        rw [event_time, u64_try_from_i64, if_pos hz]
      rw [hstep]
      unfold u64_checked_add
      rw [if_neg (by omega)]
    · rw [event_time, u64_try_from_i64, if_neg hz]

theorem write_item_some (z : Int) (it : DataItem) (mi : ItemMeta)
    (e : EmittedEvent) (h : write_item z it mi = some e) :
    0 ≤ z ∧ e.time_start = u64_of_i64 it.interval.start + z.toNat ∧
      e.time_stop = u64_of_i64 it.interval.stop + z.toNat ∧
      e.time_start < 2 ^ 64 ∧ e.time_stop < 2 ^ 64 ∧ e.title = mi.title := by
  rw [write_item] at h
  cases ha : event_time it.interval.start z with
  | none => rw [ha] at h; exact absurd h (by simp)
  | some a =>
    cases hb : event_time it.interval.stop z with
    | none => rw [ha, hb] at h; exact absurd h (by simp)
    | some b =>
      rw [ha, hb] at h
      injection h with h
      subst h
      obtain ⟨hz, ha1, ha2⟩ := event_time_some _ _ _ ha
      obtain ⟨_, hb1, hb2⟩ := event_time_some _ _ _ hb
      exact ⟨hz, ha1, hb1, ha2, hb2, rfl⟩

theorem write_items_spec (z : Int) (ps : List (DataItem × ItemMeta))
    (es : List EmittedEvent) (h : write_items z ps = some es) :
    es.length = ps.length ∧
      ∀ ep ∈ es.zip ps, write_item z ep.2.1 ep.2.2 = some ep.1 := by
  induction ps generalizing es with
  | nil =>
    injection h with h
    subst h
    exact ⟨rfl, fun ep hep => absurd hep (List.not_mem_nil ep)⟩
  | cons p t ih =>
    rw [write_items] at h
    cases hw : write_item z p.1 p.2 with
    | none => rw [hw] at h; exact absurd h (by simp)
    | some e =>
      cases ht : write_items z t with
      | none => rw [hw, ht] at h; exact absurd h (by simp)
      | some es2 =>
        rw [hw, ht] at h
        injection h with h
        subst h
        obtain ⟨hlen, hmem⟩ := ih es2 ht
        refine ⟨by simp [hlen], ?_⟩
        intro ep hep
        rw [List.zip_cons_cons, List.mem_cons] at hep
        rcases hep with hep | hep
        · subst hep
          exact hw
        · exact hmem ep hep

theorem write_items_none (z : Int) (ps : List (DataItem × ItemMeta))
    (p : DataItem × ItemMeta) (hp : p ∈ ps)
    (h : write_item z p.1 p.2 = none) : write_items z ps = none := by
  induction ps with
  | nil => exact absurd hp (List.not_mem_nil p)
  | cons q t ih =>
    rw [List.mem_cons] at hp
    rcases hp with hp | hp
    · subst hp
      rw [write_items, h]
    · rw [write_items, ih hp]
      cases write_item z q.1 q.2 <;> rfl

/-- C9: whenever `write_matched_tile` succeeds, every emitted event's
`time_start`/`time_stop` equals the item's original start/stop timestamp
(reinterpreted as `u64`) plus `zero_time`, computed without wrap-around in
unsigned 64-bit arithmetic (so `zero_time ≥ 0` and each sum is below
`2^64`), and the event carries the meta item's title; conversely, if for
any matched item the `zero_time` conversion or either 64-bit addition
overflows, the export fails loudly (`none`) instead of wrapping. -/
theorem exporter_timestamps (z : Int) (tile : SlotTile)
    (meta_tile : SlotMetaTile) :
    (∀ es, write_matched_tile z tile meta_tile = some es →
      es.length = (matchedPairs tile meta_tile).length ∧
      ∀ ep ∈ es.zip (matchedPairs tile meta_tile),
        0 ≤ z ∧
        ep.1.time_start = u64_of_i64 ep.2.1.interval.start + z.toNat ∧
        ep.1.time_stop = u64_of_i64 ep.2.1.interval.stop + z.toNat ∧
        ep.1.time_start < 2 ^ 64 ∧ ep.1.time_stop < 2 ^ 64 ∧
        ep.1.title = ep.2.2.title) ∧
    (∀ p ∈ matchedPairs tile meta_tile,
      (z < 0 ∨ 2 ^ 64 ≤ u64_of_i64 p.1.interval.start + z.toNat ∨
        2 ^ 64 ≤ u64_of_i64 p.1.interval.stop + z.toNat) →
      write_matched_tile z tile meta_tile = none) := by
  constructor
  · intro es h
    obtain ⟨hlen, hmem⟩ := write_items_spec z (matchedPairs tile meta_tile) es h
    refine ⟨hlen, ?_⟩
    intro ep hep
    obtain ⟨hz, h1, h2, h3, h4, h5⟩ :=
      write_item_some z ep.2.1 ep.2.2 ep.1 (hmem ep hep)
    exact ⟨hz, h1, h2, h3, h4, h5⟩
  · intro p hp hbad
    apply write_items_none z (matchedPairs tile meta_tile) p hp
    rw [write_item]
    rcases hbad with hz | hov | hov
    · rw [event_time_none p.1.interval.start z (Or.inl hz)]
    · rw [event_time_none p.1.interval.start z (Or.inr hov)]
    · rw [event_time_none p.1.interval.stop z (Or.inr hov)]
      cases event_time p.1.interval.start z <;> rfl

theorem exporter_timestamps_witness :
    ([(⟨6, 7, "a"⟩ : EmittedEvent)].length =
        (matchedPairs ⟨[0], [[⟨⟨1, 2⟩, 0⟩]]⟩ ⟨[0], [[⟨"a"⟩]]⟩).length) ∧
      (0 : Int) ≤ 5 ∧
      (⟨6, 7, "a"⟩ : EmittedEvent).time_start =
        u64_of_i64 (1 : Int) + (5 : Int).toNat :=
  have hmain := (exporter_timestamps 5 ⟨[0], [[⟨⟨1, 2⟩, 0⟩]]⟩
    ⟨[0], [[⟨"a"⟩]]⟩).1 [⟨6, 7, "a"⟩] (by decide)
  ⟨hmain.1,
    (hmain.2 ((⟨6, 7, "a"⟩ : EmittedEvent), ⟨⟨⟨1, 2⟩, 0⟩, ⟨"a"⟩⟩)
      (by decide)).1,
    (hmain.2 ((⟨6, 7, "a"⟩ : EmittedEvent), ⟨⟨⟨1, 2⟩, 0⟩, ⟨"a"⟩⟩)
      (by decide)).2.1⟩

end ProfViewer

namespace ProfViewer

/-! # Association-list lemmas for the matcher holding map -/

theorem alookup_cons (p : EntryID × (Option SlotTile × Option SlotMetaTile))
    (m : List (EntryID × (Option SlotTile × Option SlotMetaTile)))
    (r : EntryID) :
    alookup (p :: m) r = if p.1 = r then some p.2 else alookup m r := by
  by_cases h : p.1 = r
  · rw [if_pos h, alookup, List.find?_cons_of_pos _ (by simp [h])]
    rfl
  · rw [if_neg h, alookup, List.find?_cons_of_neg _ (by simp [h])]
    rfl

theorem alookup_cons_mk (a : EntryID) (v : Option SlotTile × Option SlotMetaTile)
    (m : List (EntryID × (Option SlotTile × Option SlotMetaTile)))
    (r : EntryID) :
    alookup ((a, v) :: m) r = if a = r then some v else alookup m r :=
  alookup_cons (a, v) m r

theorem alookup_eq_none
    (m : List (EntryID × (Option SlotTile × Option SlotMetaTile)))
    (r : EntryID) (h : r ∉ m.map Prod.fst) : alookup m r = none := by
  induction m with
  | nil => rfl
  | cons p t ih =>
    rw [List.map_cons, List.mem_cons] at h
    push_neg at h
    rw [alookup_cons, if_neg (fun he => h.1 he.symm)]
    exact ih h.2

theorem alookup_of_mem
    (m : List (EntryID × (Option SlotTile × Option SlotMetaTile)))
    (hN : (m.map Prod.fst).Nodup)
    (p : EntryID × (Option SlotTile × Option SlotMetaTile)) (hp : p ∈ m) :
    alookup m p.1 = some p.2 := by
  induction m with
  | nil => exact absurd hp (List.not_mem_nil p)
  | cons q t ih =>
    rw [List.map_cons, List.nodup_cons] at hN
    rw [List.mem_cons] at hp
    rcases hp with hp | hp
    · subst hp
      rw [alookup_cons, if_pos rfl]
    · have hkey : p.1 ∈ t.map Prod.fst := List.mem_map_of_mem Prod.fst hp
      rw [alookup_cons, if_neg (fun he => hN.1 (by rw [he]; exact hkey))]
      exact ih hN.2 hp

theorem eq_nil_of_alookup_none
    (m : List (EntryID × (Option SlotTile × Option SlotMetaTile)))
    (h : ∀ r, alookup m r = none) : m = [] := by
  cases m with
  | nil => rfl
  | cons p t =>
    have h2 := h p.1
    rw [alookup_cons, if_pos rfl] at h2
    exact Option.noConfusion h2

theorem alookup_eq_none_of_not_any
    (m : List (EntryID × (Option SlotTile × Option SlotMetaTile)))
    (k : EntryID) (h : ¬ (m.any fun p => decide (p.1 = k)) = true) :
    alookup m k = none := by
  rw [alookup]
  cases hf : m.find? fun p => decide (p.1 = k) with
  | none => rfl
  | some p =>
    exact absurd (List.any_eq_true.mpr
      ⟨p, List.mem_of_find?_eq_some hf, List.find?_some hf⟩) h

theorem alookup_isSome_of_any
    (m : List (EntryID × (Option SlotTile × Option SlotMetaTile)))
    (k : EntryID) (h : (m.any fun p => decide (p.1 = k)) = true) :
    ∃ v, alookup m k = some v := by
  rw [List.any_eq_true] at h
  obtain ⟨p, hp, hpk⟩ := h
  rw [alookup]
  cases hf : m.find? fun p => decide (p.1 = k) with
  | none =>
    rw [List.find?_eq_none] at hf
    exact absurd hpk (hf p hp)
  | some q => exact ⟨q.2, rfl⟩

theorem alookup_append_single
    (m : List (EntryID × (Option SlotTile × Option SlotMetaTile)))
    (k : EntryID) (v : Option SlotTile × Option SlotMetaTile) (r : EntryID)
    (hk : alookup m k = none) :
    alookup (m ++ [(k, v)]) r = if r = k then some v else alookup m r := by
  induction m with
  | nil =>
    rw [List.nil_append, alookup_cons_mk]
    by_cases h : r = k
    · rw [if_pos h.symm, if_pos h]
    · rw [if_neg (fun he => h he.symm), if_neg h]
  | cons p ms ih =>
    rw [alookup_cons] at hk
    have hpk : ¬ p.1 = k := by
      intro h2
      rw [if_pos h2] at hk
      exact Option.noConfusion hk
    rw [if_neg hpk] at hk
    rw [List.cons_append, alookup_cons, alookup_cons]
    by_cases hpr : p.1 = r
    · rw [if_pos hpr, if_pos hpr]
      by_cases hrk : r = k
      · exact absurd (hpr.trans hrk) hpk
      · rw [if_neg hrk]
    · rw [if_neg hpr, if_neg hpr, ih hk]

theorem alookup_mapV
    (m : List (EntryID × (Option SlotTile × Option SlotMetaTile)))
    (tile : SlotTile) (r : EntryID) :
    alookup (m.map fun p =>
        if p.1 = tile.entry_id then (p.1, (some tile, p.2.2)) else p) r =
      if r = tile.entry_id then
        (alookup m r).map fun v => (some tile, v.2)
      else alookup m r := by
  induction m with
  | nil =>
    by_cases h : r = tile.entry_id
    · rw [List.map_nil, if_pos h]
      rfl
    · rw [List.map_nil, if_neg h]
  | cons p ms ih =>
    rw [List.map_cons]
    by_cases hpk : p.1 = tile.entry_id
    · rw [if_pos hpk, alookup_cons_mk, alookup_cons]
      by_cases hpr : p.1 = r
      · have hr : r = tile.entry_id := by rw [← hpr]; exact hpk
        rw [if_pos hpr, if_pos hpr, if_pos hr]
        rfl
      · rw [if_neg hpr, if_neg hpr]
        exact ih
    · rw [if_neg hpk, alookup_cons, alookup_cons]
      by_cases hpr : p.1 = r
      · rw [if_pos hpr, if_pos hpr]
        by_cases hr : r = tile.entry_id
        · exact absurd (hpr.trans hr) hpk
        · rw [if_neg hr]
      · rw [if_neg hpr, if_neg hpr]
        exact ih

theorem alookup_mapM
    (m : List (EntryID × (Option SlotTile × Option SlotMetaTile)))
    (meta_tile : SlotMetaTile) (r : EntryID) :
    alookup (m.map fun p =>
        if p.1 = meta_tile.entry_id then (p.1, (p.2.1, some meta_tile))
        else p) r =
      if r = meta_tile.entry_id then
        (alookup m r).map fun v => (v.1, some meta_tile)
      else alookup m r := by
  induction m with
  | nil =>
    by_cases h : r = meta_tile.entry_id
    · rw [List.map_nil, if_pos h]
      rfl
    · rw [List.map_nil, if_neg h]
  | cons p ms ih =>
    rw [List.map_cons]
    by_cases hpk : p.1 = meta_tile.entry_id
    · rw [if_pos hpk, alookup_cons_mk, alookup_cons]
      by_cases hpr : p.1 = r
      · have hr : r = meta_tile.entry_id := by rw [← hpr]; exact hpk
        rw [if_pos hpr, if_pos hpr, if_pos hr]
        rfl
      · rw [if_neg hpr, if_neg hpr]
        exact ih
    · rw [if_neg hpk, alookup_cons, alookup_cons]
      by_cases hpr : p.1 = r
      · rw [if_pos hpr, if_pos hpr]
        by_cases hr : r = meta_tile.entry_id
        · exact absurd (hpr.trans hr) hpk
        · rw [if_neg hr]
      · rw [if_neg hpr, if_neg hpr]
        exact ih

theorem keys_mapV
    (m : List (EntryID × (Option SlotTile × Option SlotMetaTile)))
    (tile : SlotTile) :
    ((m.map fun p =>
        if p.1 = tile.entry_id then (p.1, (some tile, p.2.2)) else p).map
      Prod.fst) = m.map Prod.fst := by
  induction m with
  | nil => rfl
  | cons p ms ih =>
    rw [List.map_cons, List.map_cons, List.map_cons, ih]
    by_cases h : p.1 = tile.entry_id
    · rw [if_pos h]
    · rw [if_neg h]

theorem keys_mapM
    (m : List (EntryID × (Option SlotTile × Option SlotMetaTile)))
    (meta_tile : SlotMetaTile) :
    ((m.map fun p =>
        if p.1 = meta_tile.entry_id then (p.1, (p.2.1, some meta_tile))
        else p).map Prod.fst) = m.map Prod.fst := by
  induction m with
  | nil => rfl
  | cons p ms ih =>
    rw [List.map_cons, List.map_cons, List.map_cons, ih]
    by_cases h : p.1 = meta_tile.entry_id
    · rw [if_pos h]
    · rw [if_neg h]

theorem nodupK_holdPutV
    (m : List (EntryID × (Option SlotTile × Option SlotMetaTile)))
    (tile : SlotTile) (h : (m.map Prod.fst).Nodup) :
    ((holdPutV m tile).map Prod.fst).Nodup := by
  by_cases hc : (m.any fun p => decide (p.1 = tile.entry_id)) = true
  · rw [holdPutV, if_pos hc, keys_mapV]
    exact h
  · rw [holdPutV, if_neg hc, List.map_append]
    have hnot : tile.entry_id ∉ m.map Prod.fst := by
      intro hmem
      obtain ⟨p, hp, hpk⟩ := List.mem_map.mp hmem
      exact hc (List.any_eq_true.mpr ⟨p, hp, by simp [hpk]⟩)
    rw [List.nodup_append]
    refine ⟨h, List.nodup_singleton _, ?_⟩
    intro a ha hb
    have hb2 : a ∈ [tile.entry_id] := hb
    rw [List.mem_singleton] at hb2
    subst hb2
    exact hnot ha

theorem nodupK_holdPutM
    (m : List (EntryID × (Option SlotTile × Option SlotMetaTile)))
    (meta_tile : SlotMetaTile) (h : (m.map Prod.fst).Nodup) :
    ((holdPutM m meta_tile).map Prod.fst).Nodup := by
  by_cases hc : (m.any fun p => decide (p.1 = meta_tile.entry_id)) = true
  · rw [holdPutM, if_pos hc, keys_mapM]
    exact h
  · rw [holdPutM, if_neg hc, List.map_append]
    have hnot : meta_tile.entry_id ∉ m.map Prod.fst := by
      intro hmem
      obtain ⟨p, hp, hpk⟩ := List.mem_map.mp hmem
      exact hc (List.any_eq_true.mpr ⟨p, hp, by simp [hpk]⟩)
    rw [List.nodup_append]
    refine ⟨h, List.nodup_singleton _, ?_⟩
    intro a ha hb
    have hb2 : a ∈ [meta_tile.entry_id] := hb
    rw [List.mem_singleton] at hb2
    subst hb2
    exact hnot ha

theorem alookup_holdPutV
    (m : List (EntryID × (Option SlotTile × Option SlotMetaTile)))
    (tile : SlotTile) (r : EntryID) :
    alookup (holdPutV m tile) r =
      if r = tile.entry_id then
        some (some tile, (alookup m r).elim none Prod.snd)
      else alookup m r := by
  by_cases hc : (m.any fun p => decide (p.1 = tile.entry_id)) = true
  · rw [holdPutV, if_pos hc, alookup_mapV]
    by_cases hr : r = tile.entry_id
    · rw [if_pos hr, if_pos hr]
      obtain ⟨v, hv⟩ := alookup_isSome_of_any m tile.entry_id hc
      rw [← hr] at hv
      rw [hv]
      rfl
    · rw [if_neg hr, if_neg hr]
  · rw [holdPutV, if_neg hc]
    have hk : alookup m tile.entry_id = none :=
      alookup_eq_none_of_not_any m _ hc
    rw [alookup_append_single m _ _ r hk]
    by_cases hr : r = tile.entry_id
    · rw [if_pos hr, if_pos hr, hr, hk]
      rfl
    · rw [if_neg hr, if_neg hr]

theorem alookup_holdPutM
    (m : List (EntryID × (Option SlotTile × Option SlotMetaTile)))
    (meta_tile : SlotMetaTile) (r : EntryID) :
    alookup (holdPutM m meta_tile) r =
      if r = meta_tile.entry_id then
        some ((alookup m r).elim none Prod.fst, some meta_tile)
      else alookup m r := by
  by_cases hc : (m.any fun p => decide (p.1 = meta_tile.entry_id)) = true
  · rw [holdPutM, if_pos hc, alookup_mapM]
    by_cases hr : r = meta_tile.entry_id
    · rw [if_pos hr, if_pos hr]
      obtain ⟨v, hv⟩ := alookup_isSome_of_any m meta_tile.entry_id hc
      rw [← hr] at hv
      rw [hv]
      rfl
    · rw [if_neg hr, if_neg hr]
  · rw [holdPutM, if_neg hc]
    have hk : alookup m meta_tile.entry_id = none :=
      alookup_eq_none_of_not_any m _ hc
    rw [alookup_append_single m _ _ r hk]
    by_cases hr : r = meta_tile.entry_id
    · rw [if_pos hr, if_pos hr, hr, hk]
      rfl
    · rw [if_neg hr, if_neg hr]

end ProfViewer

namespace ProfViewer

/-! ## Folding a batch of responses into the holding map -/

theorem foldV_lookup (vt : EntryID → SlotTile) :
    ∀ (bl : List SlotTile)
      (m : List (EntryID × (Option SlotTile × Option SlotMetaTile)))
      (r : EntryID), (∀ t ∈ bl, t = vt t.entry_id) →
    alookup (bl.foldl holdPutV m) r =
      if r ∈ bl.map SlotTile.entry_id then
        some (some (vt r), (alookup m r).elim none Prod.snd)
      else alookup m r := by
  intro bl
  induction bl with
  | nil =>
    intro m r hb
    rw [List.foldl_nil, List.map_nil, if_neg (List.not_mem_nil r)]
  | cons t bl ih =>
    intro m r hb
    have hb2 : ∀ u ∈ bl, u = vt u.entry_id :=
      fun u hu => hb u (List.mem_cons_of_mem t hu)
    rw [List.foldl_cons, ih (holdPutV m t) r hb2]
    by_cases hmem : r ∈ bl.map SlotTile.entry_id
    · rw [if_pos hmem,
        if_pos (show r ∈ (t :: bl).map SlotTile.entry_id by
          rw [List.map_cons]; exact List.mem_cons_of_mem _ hmem),
        alookup_holdPutV]
      by_cases hr : r = t.entry_id
      · rw [if_pos hr]
        rfl
      · rw [if_neg hr]
    · rw [if_neg hmem, alookup_holdPutV]
      by_cases hr : r = t.entry_id
      · rw [if_pos hr,
          if_pos (show r ∈ (t :: bl).map SlotTile.entry_id by
            rw [List.map_cons, hr]; exact List.mem_cons_self _ _)]
        have ht : t = vt t.entry_id := hb t (List.mem_cons_self t bl)
        rw [← hr] at ht
        rw [← ht]
      · rw [if_neg hr,
          if_neg (show ¬ r ∈ (t :: bl).map SlotTile.entry_id by
            rw [List.map_cons]
            intro hx
            rcases List.mem_cons.mp hx with h | h
            · exact hr h
            · exact hmem h)]

theorem foldM_lookup (mt : EntryID → SlotMetaTile) :
    ∀ (bl : List SlotMetaTile)
      (m : List (EntryID × (Option SlotTile × Option SlotMetaTile)))
      (r : EntryID), (∀ u ∈ bl, u = mt u.entry_id) →
    alookup (bl.foldl holdPutM m) r =
      if r ∈ bl.map SlotMetaTile.entry_id then
        some ((alookup m r).elim none Prod.fst, some (mt r))
      else alookup m r := by
  intro bl
  induction bl with
  | nil =>
    intro m r hb
    rw [List.foldl_nil, List.map_nil, if_neg (List.not_mem_nil r)]
  | cons t bl ih =>
    intro m r hb
    have hb2 : ∀ u ∈ bl, u = mt u.entry_id :=
      fun u hu => hb u (List.mem_cons_of_mem t hu)
    rw [List.foldl_cons, ih (holdPutM m t) r hb2]
    by_cases hmem : r ∈ bl.map SlotMetaTile.entry_id
    · rw [if_pos hmem,
        if_pos (show r ∈ (t :: bl).map SlotMetaTile.entry_id by
          rw [List.map_cons]; exact List.mem_cons_of_mem _ hmem),
        alookup_holdPutM]
      by_cases hr : r = t.entry_id
      · rw [if_pos hr]
        rfl
      · rw [if_neg hr]
    · rw [if_neg hmem, alookup_holdPutM]
      by_cases hr : r = t.entry_id
      · rw [if_pos hr,
          if_pos (show r ∈ (t :: bl).map SlotMetaTile.entry_id by
            rw [List.map_cons, hr]; exact List.mem_cons_self _ _)]
        have ht : t = mt t.entry_id := hb t (List.mem_cons_self t bl)
        rw [← hr] at ht
        rw [← ht]
      · rw [if_neg hr,
          if_neg (show ¬ r ∈ (t :: bl).map SlotMetaTile.entry_id by
            rw [List.map_cons]
            intro hx
            rcases List.mem_cons.mp hx with h | h
            · exact hr h
            · exact hmem h)]

theorem nodupK_foldV : ∀ (bl : List SlotTile)
    (m : List (EntryID × (Option SlotTile × Option SlotMetaTile))),
    (m.map Prod.fst).Nodup → ((bl.foldl holdPutV m).map Prod.fst).Nodup := by
  intro bl
  induction bl with
  | nil => exact fun m h => h
  | cons t bl ih => exact fun m h => ih _ (nodupK_holdPutV m t h)

theorem nodupK_foldM : ∀ (bl : List SlotMetaTile)
    (m : List (EntryID × (Option SlotTile × Option SlotMetaTile))),
    (m.map Prod.fst).Nodup → ((bl.foldl holdPutM m).map Prod.fst).Nodup := by
  intro bl
  induction bl with
  | nil => exact fun m h => h
  | cons t bl ih => exact fun m h => ih _ (nodupK_holdPutM m t h)

/-! ## The `retain` sweep -/

theorem alookup_sweep :
    ∀ (m : List (EntryID × (Option SlotTile × Option SlotMetaTile))),
    (m.map Prod.fst).Nodup → ∀ (r : EntryID),
    alookup (m.filter fun p => !(p.2.1.isSome && p.2.2.isSome)) r =
      (alookup m r).bind fun v =>
        if !(v.1.isSome && v.2.isSome) then some v else none := by
  intro m
  induction m with
  | nil => intro h r; rfl
  | cons p ms ih =>
    intro h r
    rw [List.map_cons, List.nodup_cons] at h
    cases hq : (!(p.2.1.isSome && p.2.2.isSome)) with
    | true =>
      rw [List.filter_cons_of_pos (by exact hq), alookup_cons,
        alookup_cons]
      by_cases hpr : p.1 = r
      · rw [if_pos hpr, if_pos hpr]
        show some p.2 = if (!(p.2.1.isSome && p.2.2.isSome)) then some p.2
          else none
        rw [hq, if_pos rfl]
      · rw [if_neg hpr, if_neg hpr]
        exact ih h.2 r
    | false =>
      rw [List.filter_cons_of_neg (by
          show ¬ (!(p.2.1.isSome && p.2.2.isSome)) = true
          rw [hq]
          exact Bool.false_ne_true),
        alookup_cons]
      by_cases hpr : p.1 = r
      · rw [if_pos hpr]
        have hrm : r ∉ ms.map Prod.fst := by
          rw [← hpr]
          exact h.1
        have hsub : r ∉ ((ms.filter fun p =>
            !(p.2.1.isSome && p.2.2.isSome)).map Prod.fst) := by
          intro hx
          apply hrm
          obtain ⟨q, hq2, hq3⟩ := List.mem_map.mp hx
          exact hq3 ▸ List.mem_map_of_mem Prod.fst (List.mem_of_mem_filter hq2)
        rw [alookup_eq_none _ _ hsub]
        show none = if (!(p.2.1.isSome && p.2.2.isSome)) then some p.2
          else none
        rw [hq, if_neg (by exact Bool.false_ne_true)]
      · rw [if_neg hpr]
        exact ih h.2 r

theorem nodupK_sweep
    (m : List (EntryID × (Option SlotTile × Option SlotMetaTile)))
    (h : (m.map Prod.fst).Nodup) :
    (((m.filter fun p => !(p.2.1.isSome && p.2.2.isSome)).map
      Prod.fst)).Nodup :=
  List.Nodup.sublist (List.Sublist.map Prod.fst (List.filter_sublist m)) h

/-! ## Schedule bookkeeping -/

theorem vKeys_cons (b : List SlotTile × List SlotMetaTile)
    (rest : List (List SlotTile × List SlotMetaTile)) :
    vKeys (b :: rest) = b.1.map SlotTile.entry_id ++ vKeys rest := by
  rw [vKeys, List.map_cons, List.flatten_cons, List.map_append]
  rfl

theorem mKeys_cons (b : List SlotTile × List SlotMetaTile)
    (rest : List (List SlotTile × List SlotMetaTile)) :
    mKeys (b :: rest) = b.2.map SlotMetaTile.entry_id ++ mKeys rest := by
  rw [mKeys, List.map_cons, List.flatten_cons, List.map_append]
  rfl

theorem schedLen_cons (b : List SlotTile × List SlotMetaTile)
    (rest : List (List SlotTile × List SlotMetaTile)) :
    schedLen (b :: rest) = batchLen b + schedLen rest := by
  simp [schedLen]

theorem schedLen_eq (sched : List (List SlotTile × List SlotMetaTile)) :
    schedLen sched = (vKeys sched).length + (mKeys sched).length := by
  induction sched with
  | nil => rfl
  | cons b rest ih =>
    rw [schedLen_cons, vKeys_cons, mKeys_cons, List.length_append,
      List.length_append, ih, batchLen, List.length_map, List.length_map]
    omega

end ProfViewer

namespace ProfViewer

/-! ## Keys of the matched entries -/

theorem matched_keys (vt : EntryID → SlotTile)
    (hvt : ∀ r, (vt r).entry_id = r) :
    ∀ (m2 : List (EntryID × (Option SlotTile × Option SlotMetaTile))),
    (∀ p ∈ m2, p.2.1 = none ∨ p.2.1 = some (vt p.1)) →
    ((m2.filterMap matchPair).map fun e => e.1.entry_id) =
      (m2.filter fun p => p.2.1.isSome && p.2.2.isSome).map Prod.fst := by
  intro m2
  induction m2 with
  | nil => intro h; rfl
  | cons p ms ih =>
    intro h
    have hp := h p (List.mem_cons_self p ms)
    have ht := fun q hq => h q (List.mem_cons_of_mem p hq)
    rcases p with ⟨a, ov, om⟩
    cases ov with
    | none =>
      cases om with
      | none => exact ih ht
      | some u => exact ih ht
    | some t =>
      cases om with
      | none => exact ih ht
      | some u =>
        have ht2 : t = vt a := by
          rcases hp with h1 | h1
          · exact Option.noConfusion h1
          · exact Option.some.inj h1
        have hL : (((⟨a, (some t, some u)⟩ :: ms).filterMap matchPair).map
            fun e => e.1.entry_id) =
            t.entry_id :: ((ms.filterMap matchPair).map
              fun e => e.1.entry_id) := rfl
        have hR : ((⟨a, (some t, some u)⟩ :: ms).filter
              fun p => p.2.1.isSome && p.2.2.isSome).map Prod.fst =
            a :: ((ms.filter fun p =>
              p.2.1.isSome && p.2.2.isSome).map Prod.fst) := rfl
        rw [hL, hR, ih ht, ht2, hvt a]

/-! ## One loop iteration preserves the matcher invariant -/

theorem stepBatch_inv (vt : EntryID → SlotTile) (mt : EntryID → SlotMetaTile)
    (hvt : ∀ r, (vt r).entry_id = r) (hmt : ∀ r, (mt r).entry_id = r)
    (dV dM : List EntryID) (hdV : dV.Nodup) (hdM : dM.Nodup)
    (b : List SlotTile × List SlotMetaTile)
    (hb1 : ∀ t ∈ b.1, t = vt t.entry_id)
    (hb2 : ∀ u ∈ b.2, u = mt u.entry_id)
    (hbvN : (b.1.map SlotTile.entry_id).Nodup)
    (hbmN : (b.2.map SlotMetaTile.entry_id).Nodup)
    (hfV : ∀ r ∈ b.1.map SlotTile.entry_id, r ∉ dV)
    (hfM : ∀ r ∈ b.2.map SlotMetaTile.entry_id, r ∉ dM)
    (st : MatcherState) (hinv : MatchInv vt mt dV dM st) :
    MatchInv vt mt (dV ++ b.1.map SlotTile.entry_id)
      (dM ++ b.2.map SlotMetaTile.entry_id) (stepBatch st b) ∧
    (stepBatch st b).outstanding = st.outstanding - batchLen b := by
  have hN1 : (((b.1.foldl holdPutV st.unmatched_tiles)).map Prod.fst).Nodup :=
    nodupK_foldV b.1 st.unmatched_tiles hinv.nodupK
  have hN2 : (((b.2.foldl holdPutM
      (b.1.foldl holdPutV st.unmatched_tiles))).map Prod.fst).Nodup :=
    nodupK_foldM b.2 _ hN1
  have hm2 : ∀ r, alookup
      (b.2.foldl holdPutM (b.1.foldl holdPutV st.unmatched_tiles)) r =
      if r ∈ dV ++ b.1.map SlotTile.entry_id then
        if r ∈ dM ++ b.2.map SlotMetaTile.entry_id then
          (if r ∈ dV ∧ r ∈ dM then none
           else some (some (vt r), some (mt r)))
        else some (some (vt r), none)
      else
        if r ∈ dM ++ b.2.map SlotMetaTile.entry_id then
          some (none, some (mt r))
        else none := by
    intro r
    rw [foldM_lookup mt b.2 (b.1.foldl holdPutV st.unmatched_tiles) r hb2,
      foldV_lookup vt b.1 st.unmatched_tiles r hb1, hinv.look r]
    by_cases hA : r ∈ b.1.map SlotTile.entry_id <;>
      by_cases hB : r ∈ b.2.map SlotMetaTile.entry_id <;>
      by_cases hP : r ∈ dV <;>
      by_cases hQ : r ∈ dM
    all_goals (try exact absurd hP (hfV r hA))
    all_goals (try exact absurd hQ (hfM r hB))
    all_goals simp [List.mem_append, hA, hB, hP, hQ, Option.elim]
  have hshape : ∀ p ∈ b.2.foldl holdPutM
      (b.1.foldl holdPutV st.unmatched_tiles),
      (p.2.1 = none ∨ p.2.1 = some (vt p.1)) ∧
      (p.2.2 = none ∨ p.2.2 = some (mt p.1)) := by
    intro p hp
    have hl := alookup_of_mem _ hN2 p hp
    rw [hm2 p.1] at hl
    by_cases hx : p.1 ∈ dV ++ b.1.map SlotTile.entry_id <;>
      by_cases hy : p.1 ∈ dM ++ b.2.map SlotMetaTile.entry_id <;>
      by_cases hz : p.1 ∈ dV ∧ p.1 ∈ dM <;>
      simp only [hx, hy, hz, if_true, if_false, if_pos, if_neg,
        not_false_iff, not_true] at hl <;>
      first
      | exact Option.noConfusion hl
      | (rw [← Option.some.inj hl]; simp)
  have hnewK : ∀ r : EntryID,
      (r ∈ (((b.2.foldl holdPutM
          (b.1.foldl holdPutV st.unmatched_tiles)).filter
        fun p => p.2.1.isSome && p.2.2.isSome).map Prod.fst)) ↔
      (r ∈ dV ++ b.1.map SlotTile.entry_id ∧
        r ∈ dM ++ b.2.map SlotMetaTile.entry_id ∧
        ¬(r ∈ dV ∧ r ∈ dM)) := by
    intro r
    constructor
    · intro h
      obtain ⟨p, hp, hpk⟩ := List.mem_map.mp h
      obtain ⟨hpm, hpb⟩ := List.mem_filter.mp hp
      have hl := alookup_of_mem _ hN2 p hpm
      rw [hm2 p.1] at hl
      subst hpk
      by_cases hx : p.1 ∈ dV ++ b.1.map SlotTile.entry_id <;>
        by_cases hy : p.1 ∈ dM ++ b.2.map SlotMetaTile.entry_id <;>
        by_cases hz : p.1 ∈ dV ∧ p.1 ∈ dM <;>
        simp only [hx, hy, hz, if_true, if_false, if_pos, if_neg,
          not_false_iff, not_true] at hl <;>
        first
        | exact Option.noConfusion hl
        | exact ⟨hx, hy, hz⟩
        | (exfalso; rw [← Option.some.inj hl] at hpb; simp at hpb)
    · rintro ⟨h1, h2, h3⟩
      have hl : alookup (b.2.foldl holdPutM
          (b.1.foldl holdPutV st.unmatched_tiles)) r =
          some (some (vt r), some (mt r)) := by
        rw [hm2 r, if_pos h1, if_pos h2, if_neg h3]
      rw [alookup] at hl
      cases hf : (b.2.foldl holdPutM
          (b.1.foldl holdPutV st.unmatched_tiles)).find?
          fun p => decide (p.1 = r) with
      | none => rw [hf] at hl; exact Option.noConfusion hl
      | some q =>
        rw [hf] at hl
        have hq1 : q.1 = r := by
          have h5 := List.find?_some hf
          simpa using h5
        have hq2 : q.2 = (some (vt r), some (mt r)) := by
          have h5 : some q.2 = some (some (vt r), some (mt r)) := hl
          exact Option.some.inj h5
        refine List.mem_map.mpr ⟨q, List.mem_filter.mpr
          ⟨List.mem_of_find?_eq_some hf, ?_⟩, hq1⟩
        show (q.2.1.isSome && q.2.2.isSome) = true
        rw [hq2]
        rfl
  have hun : (stepBatch st b).unmatched_tiles =
      ((b.2.foldl holdPutM (b.1.foldl holdPutV st.unmatched_tiles)).filter
        fun p => !(p.2.1.isSome && p.2.2.isSome)) := rfl
  have hem : (stepBatch st b).emitted = st.emitted ++
      ((b.2.foldl holdPutM
        (b.1.foldl holdPutV st.unmatched_tiles)).filterMap matchPair) := rfl
  refine ⟨⟨?_, ?_, ?_, ?_⟩, rfl⟩
  · rw [hun]
    exact nodupK_sweep _ hN2
  · intro r
    rw [hun, alookup_sweep _ hN2 r, hm2 r]
    by_cases hx : r ∈ dV ++ b.1.map SlotTile.entry_id <;>
      by_cases hy : r ∈ dM ++ b.2.map SlotMetaTile.entry_id <;>
      by_cases hz : r ∈ dV ∧ r ∈ dM <;>
      simp [hx, hy, hz]
  · intro e he
    rw [hem] at he
    rcases List.mem_append.mp he with h | h
    · exact hinv.emit_mem e h
    · obtain ⟨p, hp, hf⟩ := List.mem_filterMap.mp h
      obtain ⟨hs1, hs2⟩ := hshape p hp
      rcases p with ⟨a, ov, om⟩
      cases ov with
      | none =>
        cases om with
        | none => exact Option.noConfusion hf
        | some u => exact Option.noConfusion hf
      | some t =>
        cases om with
        | none => exact Option.noConfusion hf
        | some u =>
          have hf2 : some (t, u) = some e := hf
          have he2 : e = (t, u) := (Option.some.inj hf2).symm
          have ht2 : t = vt a := by
            rcases hs1 with h1 | h1
            · exact Option.noConfusion h1
            · exact Option.some.inj h1
          have hu2 : u = mt a := by
            rcases hs2 with h1 | h1
            · exact Option.noConfusion h1
            · exact Option.some.inj h1
          subst he2
          have hae : ((t, u) : SlotTile × SlotMetaTile).1.entry_id = a := by
            show t.entry_id = a
            rw [ht2, hvt a]
          rw [hae, ← ht2, ← hu2]
  · rw [hem, List.map_append,
      matched_keys vt hvt _ (fun p hp => (hshape p hp).1)]
    refine (hinv.emit_keys.append_right _).trans ?_
    have hRnodup : ((dV ++ b.1.map SlotTile.entry_id).filter
        fun r => decide (r ∈ dM ++ b.2.map SlotMetaTile.entry_id)).Nodup :=
      (List.nodup_append.mpr ⟨hdV, hbvN,
        fun a ha hb => hfV a hb ha⟩).filter _
    have hLnodup : ((dV.filter fun r => decide (r ∈ dM)) ++
        (((b.2.foldl holdPutM
          (b.1.foldl holdPutV st.unmatched_tiles)).filter
          fun p => p.2.1.isSome && p.2.2.isSome).map Prod.fst)).Nodup := by
      rw [List.nodup_append]
      refine ⟨hdV.filter _, List.Nodup.sublist
        (List.Sublist.map Prod.fst (List.filter_sublist _)) hN2, ?_⟩
      intro a ha hb
      rw [List.mem_filter] at ha
      have hq := (hnewK a).mp hb
      exact hq.2.2 ⟨ha.1, by simpa using ha.2⟩
    apply (List.perm_ext_iff_of_nodup hLnodup hRnodup).mpr
    intro a
    rw [List.mem_append, List.mem_filter, List.mem_filter, hnewK a]
    simp only [decide_eq_true_eq]
    constructor
    · rintro (⟨h1, h2⟩ | ⟨h1, h2, h3⟩)
      · exact ⟨List.mem_append_left _ h1, List.mem_append_left _ h2⟩
      · exact ⟨h1, h2⟩
    · rintro ⟨h1, h2⟩
      by_cases h3 : a ∈ dV ∧ a ∈ dM
      · exact Or.inl h3
      · exact Or.inr ⟨h1, h2, h3⟩

end ProfViewer

namespace ProfViewer

/-! ## Quiescence -/

theorem MatchInv_final (vt : EntryID → SlotTile) (mt : EntryID → SlotMetaTile)
    (dV dM : List EntryID) (st : MatcherState)
    (hinv : MatchInv vt mt dV dM st)
    (hcomp : ∀ r, r ∈ dV ↔ r ∈ dM) :
    st.unmatched_tiles = [] ∧
    (∀ e ∈ st.emitted, e = (vt e.1.entry_id, mt e.1.entry_id)) ∧
    (st.emitted.map fun e => e.1.entry_id).Perm dV := by
  refine ⟨?_, hinv.emit_mem, ?_⟩
  · apply eq_nil_of_alookup_none
    intro r
    rw [hinv.look r]
    by_cases hP : r ∈ dV
    · rw [if_pos hP, if_pos ((hcomp r).mp hP)]
    · rw [if_neg hP, if_neg (fun hQ => hP ((hcomp r).mpr hQ))]
  · refine hinv.emit_keys.trans ?_
    have hfe : (dV.filter fun r => decide (r ∈ dM)) = dV :=
      List.filter_eq_self.mpr (fun a ha => by simp [(hcomp a).mp ha])
    rw [hfe]

theorem process_events_complete (vt : EntryID → SlotTile)
    (mt : EntryID → SlotMetaTile)
    (hvt : ∀ r, (vt r).entry_id = r) (hmt : ∀ r, (mt r).entry_id = r) :
    ∀ (sched : List (List SlotTile × List SlotMetaTile))
      (dV dM : List EntryID) (st : MatcherState),
    MatchInv vt mt dV dM st →
    dV.Nodup → dM.Nodup →
    (∀ b ∈ sched, ∀ t ∈ b.1, t = vt t.entry_id) →
    (∀ b ∈ sched, ∀ u ∈ b.2, u = mt u.entry_id) →
    (vKeys sched).Nodup → (mKeys sched).Nodup →
    (∀ r ∈ vKeys sched, r ∉ dV) → (∀ r ∈ mKeys sched, r ∉ dM) →
    (∀ r, r ∈ dV ++ vKeys sched ↔ r ∈ dM ++ mKeys sched) →
    st.outstanding = schedLen sched →
    (process_events 0 st sched).outstanding = 0 ∧
    (process_events 0 st sched).unmatched_tiles = [] ∧
    (∀ e ∈ (process_events 0 st sched).emitted,
      e = (vt e.1.entry_id, mt e.1.entry_id)) ∧
    ((process_events 0 st sched).emitted.map fun e => e.1.entry_id).Perm
      (dV ++ vKeys sched) := by
  intro sched
  induction sched with
  | nil =>
    intro dV dM st hinv hdV hdM _ _ _ _ _ _ hcomp hout
    have hfin : process_events 0 st [] = st := rfl
    rw [hfin]
    have hcomp2 : ∀ r, r ∈ dV ↔ r ∈ dM := by
      intro r
      have h := hcomp r
      simpa [vKeys, mKeys] using h
    obtain ⟨h1, h2, h3⟩ := MatchInv_final vt mt dV dM st hinv hcomp2
    refine ⟨hout, h1, h2, ?_⟩
    simpa [vKeys] using h3
  | cons b rest ih =>
    intro dV dM st hinv hdV hdM hbt hbu hvN hmN hfV hfM hcomp hout
    rw [show process_events 0 st (b :: rest) =
      if st.outstanding ≤ 0 then st
      else process_events 0 (stepBatch st b) rest from rfl]
    by_cases hguard : st.outstanding ≤ 0
    · rw [if_pos hguard]
      have h0 : schedLen (b :: rest) = 0 := by omega
      have hkey0 : (vKeys (b :: rest)).length + (mKeys (b :: rest)).length
          = 0 := by
        rw [← schedLen_eq]
        exact h0
      have hv0 : vKeys (b :: rest) = [] := List.length_eq_zero.mp (by omega)
      have hm0 : mKeys (b :: rest) = [] := List.length_eq_zero.mp (by omega)
      have hcomp2 : ∀ r, r ∈ dV ↔ r ∈ dM := by
        intro r
        have h := hcomp r
        rw [hv0, hm0] at h
        simpa using h
      obtain ⟨h1, h2, h3⟩ := MatchInv_final vt mt dV dM st hinv hcomp2
      refine ⟨by omega, h1, h2, ?_⟩
      rw [hv0, List.append_nil]
      exact h3
    · rw [if_neg hguard]
      have hvc := vKeys_cons b rest
      have hmc := mKeys_cons b rest
      rw [hvc, List.nodup_append] at hvN
      rw [hmc, List.nodup_append] at hmN
      obtain ⟨hinv2, hout2⟩ := stepBatch_inv vt mt hvt hmt dV dM hdV hdM b
        (hbt b (List.mem_cons_self b rest)) (hbu b (List.mem_cons_self b rest))
        hvN.1 hmN.1
        (fun r hr => hfV r (by rw [hvc]; exact List.mem_append_left _ hr))
        (fun r hr => hfM r (by rw [hmc]; exact List.mem_append_left _ hr))
        st hinv
      have hdV2 : (dV ++ b.1.map SlotTile.entry_id).Nodup :=
        List.nodup_append.mpr ⟨hdV, hvN.1, fun a ha hb =>
          hfV a (by rw [hvc]; exact List.mem_append_left _ hb) ha⟩
      have hdM2 : (dM ++ b.2.map SlotMetaTile.entry_id).Nodup :=
        List.nodup_append.mpr ⟨hdM, hmN.1, fun a ha hb =>
          hfM a (by rw [hmc]; exact List.mem_append_left _ hb) ha⟩
      have happ := ih (dV ++ b.1.map SlotTile.entry_id)
        (dM ++ b.2.map SlotMetaTile.entry_id) (stepBatch st b) hinv2
        hdV2 hdM2
        (fun b2 hb2 => hbt b2 (List.mem_cons_of_mem b hb2))
        (fun b2 hb2 => hbu b2 (List.mem_cons_of_mem b hb2))
        hvN.2.1 hmN.2.1
        (fun r hr => by
          rw [List.mem_append]
          rintro (h | h)
          · exact hfV r (by rw [hvc]; exact List.mem_append_right _ hr) h
          · exact hvN.2.2 h hr)
        (fun r hr => by
          rw [List.mem_append]
          rintro (h | h)
          · exact hfM r (by rw [hmc]; exact List.mem_append_right _ hr) h
          · exact hmN.2.2 h hr)
        (fun r => by
          have h := hcomp r
          rw [hvc, hmc] at h
          simpa [List.mem_append, or_assoc] using h)
        (by
          rw [hout2, hout, schedLen_cons]
          omega)
      obtain ⟨g1, g2, g3, g4⟩ := happ
      refine ⟨g1, g2, g3, ?_⟩
      rw [hvc, ← List.append_assoc]
      exact g4

/-- C8: drive `process_events` with threshold `N = 0` from `outstanding`
equal to the total number of fetched responses, over any delivery schedule
in which every row's value tile and meta tile each arrive exactly once and
the same rows receive both kinds: the loop runs until no requests are
outstanding, files value tiles and meta tiles into the holding map by row,
emits exactly one matched (value, meta) pair per fetched row, and exits
with the holding map empty. -/
theorem matcher_drains (vt : EntryID → SlotTile) (mt : EntryID → SlotMetaTile)
    (hvt : ∀ r, (vt r).entry_id = r) (hmt : ∀ r, (mt r).entry_id = r)
    (sched : List (List SlotTile × List SlotMetaTile))
    (hb1 : ∀ b ∈ sched, ∀ t ∈ b.1, t = vt t.entry_id)
    (hb2 : ∀ b ∈ sched, ∀ u ∈ b.2, u = mt u.entry_id)
    (hvN : (vKeys sched).Nodup) (hmN : (mKeys sched).Nodup)
    (hcomp : ∀ r, r ∈ vKeys sched ↔ r ∈ mKeys sched) :
    (process_events 0 ⟨schedLen sched, [], []⟩ sched).outstanding = 0 ∧
    (process_events 0 ⟨schedLen sched, [], []⟩ sched).unmatched_tiles = [] ∧
    (∀ e ∈ (process_events 0 ⟨schedLen sched, [], []⟩ sched).emitted,
      e = (vt e.1.entry_id, mt e.1.entry_id)) ∧
    ((process_events 0 ⟨schedLen sched, [], []⟩ sched).emitted.map
      fun e => e.1.entry_id).Perm (vKeys sched) := by
  have hinit : MatchInv vt mt [] [] ⟨schedLen sched, [], []⟩ := by
    refine ⟨List.nodup_nil, ?_, ?_, ?_⟩
    · intro r
      simp [alookup]
    · intro e he
      exact absurd he (List.not_mem_nil e)
    · simp
  have h := process_events_complete vt mt hvt hmt sched [] []
    ⟨schedLen sched, [], []⟩ hinit List.nodup_nil List.nodup_nil hb1 hb2
    hvN hmN (fun r _ => List.not_mem_nil r) (fun r _ => List.not_mem_nil r)
    (fun r => by simpa using hcomp r) rfl
  obtain ⟨g1, g2, g3, g4⟩ := h
  refine ⟨g1, g2, g3, ?_⟩
  rw [List.nil_append] at g4
  exact g4

theorem matcher_drains_witness :
    (process_events 0 ⟨schedLen schedFixture, [], []⟩
      schedFixture).outstanding = 0 ∧
    (process_events 0 ⟨schedLen schedFixture, [], []⟩
      schedFixture).unmatched_tiles = [] ∧
    (∀ e ∈ (process_events 0 ⟨schedLen schedFixture, [], []⟩
        schedFixture).emitted,
      e = (vtFixture e.1.entry_id, mtFixture e.1.entry_id)) ∧
    ((process_events 0 ⟨schedLen schedFixture, [], []⟩
        schedFixture).emitted.map
      fun e => e.1.entry_id).Perm (vKeys schedFixture) :=
  matcher_drains vtFixture mtFixture (fun _ => rfl) (fun _ => rfl)
    schedFixture (by decide) (by decide) (by decide) (by decide)
    (fun r => Iff.rfl)

end ProfViewer
